import Mathlib

/-!
# mkpdimg: the persistent data image generator

A shallow embedding of `src/mingw/mkpdimg.c`.

Conventions of the embedding.

* A byte is a natural number; a C string is the list of its bytes up to, and
  without, the terminating NUL.
* `unsigned int`, `int` and `size_t` are 32 bits wide (the ILP32 data model of
  the mingw target); unsigned arithmetic is written with an explicit
  `% 2 ^ 32`.  Words are laid out in memory in little-endian byte order.
* Behaviour that the C standard leaves undefined (a NULL pointer handed to
  `strcmp` or `fwrite`, an access outside an array) is the outcome
  `Outcome.undefined`.
* The environment is a `World`: whether `fopen` succeeds on a path, and what
  each call of `fwrite` transfers.  The stream is a binary stream, and `malloc`
  does not fail.
-/

set_option autoImplicit false
set_option maxRecDepth 8192

namespace Mkpdimg

/-! ## Bytes, strings and words -/

/-- A sequence of bytes: the contents of a C string, of a memory block or of a file. -/
abbrev Bytes := List Nat

/-- The bytes of a string literal of the source (ASCII). -/
def cstr (s : String) : Bytes := s.toList.map Char.toNat

/-- The four bytes of an `unsigned int` in memory, least significant byte first. -/
def le32 (v : Nat) : Bytes :=
  [v % 256, v / 256 % 256, v / 65536 % 256, v / 16777216 % 256]

/-- The `unsigned int` stored in the four bytes at offset `off` of `bs`. -/
def rd32 (bs : Bytes) (off : Nat) : Nat :=
  bs.getD off 0 + 256 * bs.getD (off + 1) 0 + 65536 * bs.getD (off + 2) 0
    + 16777216 * bs.getD (off + 3) 0

/-! ## Constants of the source -/

def MAC_ADDRESS_LEN : Nat := 17
/-- The C string held by the literal `"00\0"`. -/
def VALID_MARVELL_MAC_1 : Bytes := cstr "00"
/-- The C string held by the literal `"50\0"`. -/
def VALID_MARVELL_MAC_2 : Bytes := cstr "50"
/-- The C string held by the literal `"43\0"`. -/
def VALID_MARVELL_MAC_3 : Bytes := cstr "43"

def SN_TYPE : Nat := 0xF001
def WIFI_MAC_TYPE : Nat := 0xF002
def BT_MAC_TYPE : Nat := 0xF003
def ZB_MAC_TYPE : Nat := 0xF004
def CHECK_SUM_TYPE : Nat := 0xF0FF

def BLOCK_NUMBER : Nat := 4

def image_header : Nat := 0x19081400

/-- The value of `sizeof(PDATA_BLOCK_t)`: two `unsigned int` fields and a
zero-length array. -/
def sizeof_PDATA_BLOCK_t : Nat := 8

/-- The value of `sizeof(unsigned int)`. -/
def sizeof_unsigned_int : Nat := 4

/-- A record of the image, `struct persistent_data_block`: the two header
fields and the bytes copied into `data`. -/
structure PDATA_BLOCK_t where
  type : Nat
  length : Nat
  data : Bytes
  deriving DecidableEq, Repr

/-- The memory of a block as `fwrite` reads it: `type`, `length`, then `data`. -/
def PDATA_BLOCK_t.mem (b : PDATA_BLOCK_t) : Bytes :=
  le32 b.type ++ le32 b.length ++ b.data

/-! ## The C library -/

/-- The C function `strtok`, one call: `s` is the text from the scan pointer
to the terminating NUL.  Leading delimiters are skipped; with nothing left the
call returns NULL (`none`); else the token runs to the next delimiter, which is
overwritten by NUL, and the scan pointer moves past it.  The second component
is the text from the new scan pointer. -/
def strtok (s : Bytes) (delim : Bytes) : Option Bytes × Bytes :=
  match s.dropWhile (fun c => delim.elem c) with
  | [] => (none, [])
  | c :: cs =>
    (some ((c :: cs).takeWhile (fun c => !delim.elem c)),
     ((c :: cs).dropWhile (fun c => !delim.elem c)).drop 1)

/-- The C function `isspace` in the C locale. -/
def isspace (c : Nat) : Bool := c == 32 || (9 ≤ c && c ≤ 13)

/-- The C function `isdigit`. -/
def isdigit (c : Nat) : Bool := 48 ≤ c && c ≤ 57

/-- The value of the longest run of decimal digits at the head of a string,
continuing from `acc`. -/
def digitsValue : Bytes → Nat → Nat
  | [], acc => acc
  | c :: cs, acc => if isdigit c then digitsValue cs (acc * 10 + (c - 48)) else acc

/-- The C function `atoi`: white space, an optional sign, decimal digits.  A
value that an `int` cannot hold is undefined behaviour (`none`). -/
def atoi (s : Bytes) : Option Int :=
  let v : Int :=
    match s.dropWhile isspace with
    | 45 :: cs => - (digitsValue cs 0 : Int)
    | 43 :: cs => (digitsValue cs 0 : Int)
    | cs => (digitsValue cs 0 : Int)
  if -2147483648 ≤ v ∧ v ≤ 2147483647 then some v else none

/-! ## validateMacAddr -/

/-- What a call of `validateMacAddr` does. -/
inductive ValResult where
  /-- The call returns 0. -/
  | ok
  /-- The call prints "index `index`-`p` is wrong" and returns -1. -/
  | wrongToken (index : Nat) (p : Bytes)
  /-- The call returns -1 from its last line (`index` is not 7). -/
  | wrongCount
  /-- The call hands the NULL result of the first `strtok` to `strcmp`. -/
  | nullToken
  deriving DecidableEq, Repr

/-- The value returned by `validateMacAddr`, when its behaviour is defined. -/
def ValResult.ret : ValResult → Option Int
  | .ok => some 0
  | .wrongToken _ _ => some (-1)
  | .wrongCount => some (-1)
  | .nullToken => none

/-- The last statement of `validateMacAddr`: `if (index == 7) return 0; else return -1;`. -/
def validateReturn (index : Nat) : ValResult :=
  if index = 7 then .ok else .wrongCount

/-- The loop `while((p = strtok(NULL, delim)) && (index <= 6))` of
`validateMacAddr` and the return that follows it; `olds` is the text at the scan
pointer of `strtok`.  Every iteration increments `index`, so from `index ≥ 2`
the body runs at most five times: `fuel` bounds the number of calls of `strtok`
and six are enough (`validateLoop_fuel`). -/
def validateLoop (format_checking : Bool) : Nat → Nat → Bytes → ValResult
  | 0, index, _ => validateReturn index
  | fuel + 1, index, olds =>
    match strtok olds (cstr ":") with
    | (none, _) => validateReturn index
    | (some p, olds') =>
      if index ≤ 6 then
        if format_checking && index == 2 && p != VALID_MARVELL_MAC_2 then
          .wrongToken index p
        else if format_checking && index == 3 && p != VALID_MARVELL_MAC_3 then
          .wrongToken index p
        else validateLoop format_checking fuel (index + 1) olds'
      else validateReturn index

/-- The function `validateMacAddr(mac_addr, format_checking)`. -/
def validateMacAddr (mac_addr : Bytes) (format_checking : Bool) : ValResult :=
  match strtok mac_addr (cstr ":") with
  | (none, olds) =>
    if format_checking then .nullToken
    else validateLoop format_checking 6 2 olds
  | (some p, olds) =>
    if format_checking && p != VALID_MARVELL_MAC_1 then .wrongToken 1 p
    else validateLoop format_checking 6 2 olds

/-! ## calc_checksum -/

/-- The function `calc_checksum(fd, seed)`, on the bytes of the stream from the
read position to its end: `seed += buf[0]` for every byte read. -/
def calc_checksum : Bytes → Nat → Nat
  | [], seed => seed
  | b :: rest, seed => calc_checksum rest ((seed + b) % 2 ^ 32)

/-! ## The environment and the outcome of a run -/

/-- The environment of a run.  `fopen path` tells whether opening `path` with
mode `"w+"` succeeds.  `fwrite k n` answers the `k`-th call of `fwrite` of the
run (counted from 0), asked to write `n` bytes: the number of bytes transferred
(at most `n` of them are) and whether `errno` is `EINTR` when the call returns. -/
structure World where
  fopen : Bytes → Bool
  fwrite : Nat → Nat → Nat × Bool

/-- An environment where every `fwrite` transfers all the bytes it is given. -/
def World.reliable (w : World) : Prop := ∀ k n, (w.fwrite k n).1 = n

/-- The environment where every file opens and every write is complete. -/
def idealWorld : World := ⟨fun _ => true, fun _ n => (n, false)⟩

/-- How a run of `main` ends. -/
inductive Outcome where
  /-- A call `exit(status)`, made while the options are read: nothing has been
  written to an output file. -/
  | exited (status : Int)
  /-- The function `main` returns `status`; `file` is the content of the output file. -/
  | returned (status : Int) (file : Bytes)
  /-- The run has undefined behaviour. -/
  | undefined
  deriving DecidableEq, Repr

/-- The local variables of `main` that the option loop sets.  `PDataBlock`
lists the entries `PDataBlock[0 .. total_blocks - 1]` (the others are NULL), so
`total_blocks` is its length; `fd` is the path of the open output stream. -/
structure MainState where
  PDataBlock : List PDATA_BLOCK_t
  fd : Option Bytes
  checksum_offset : Int
  total_data_len : Nat
  deriving DecidableEq, Repr

/-- The variable `total_blocks`. -/
def MainState.total_blocks (st : MainState) : Nat := st.PDataBlock.length

/-- The locals of `main` before the option loop. -/
def MainState.init : MainState := ⟨[], none, 0, 0⟩

/-- The result of one pass through the body of the option loop. -/
inductive Step where
  | next (st : MainState)
  | stop (o : Outcome)
  deriving DecidableEq, Repr

/-! ## main: the option loop -/

/-- The statements shared by the branches that add a record:
`PDataBlock[total_blocks] = malloc(..)`, the stores to `type` and `length`,
`total_data_len += length + sizeof(PDATA_BLOCK_t)`, the `memcpy` of `data` and
`total_blocks++`.  The store to `PDataBlock[total_blocks]` is outside the array
when `total_blocks` is `BLOCK_NUMBER`. -/
def addBlock (st : MainState) (type length : Nat) (data : Bytes) : Step :=
  if st.total_blocks < BLOCK_NUMBER then
    .next { st with
      PDataBlock := st.PDataBlock ++ [⟨type, length, data⟩]
      total_data_len := (st.total_data_len + (length + sizeof_PDATA_BLOCK_t) % 2 ^ 32) % 2 ^ 32 }
  else .stop .undefined

/-- The branches `-sn` and `-zb_mac`: `length = strlen(argv[i])` and `length`
bytes of the argument are copied. -/
def addString (st : MainState) (type : Nat) (arg : Bytes) : Step :=
  addBlock st type (arg.length % 2 ^ 32) (arg.take (arg.length % 2 ^ 32))

/-- The branches `-wifi_mac`, `-wifi_mac_no_check`, `-bt_mac` and
`-bt_mac_no_check`.  The argument is copied with `strcpy` into `tempbuffer`,
an array of `MAC_ADDRESS_LEN + 1` bytes, and the copy is validated; then
`MAC_ADDRESS_LEN` bytes are copied with `memcpy` from the argument itself, an
array of `strlen + 1` bytes that ends with NUL. -/
def addMac (st : MainState) (type : Nat) (arg : Bytes) (format_checking : Bool) : Step :=
  if MAC_ADDRESS_LEN + 1 < arg.length + 1 then .stop .undefined
  else
    match (validateMacAddr arg format_checking).ret with
    | none => .stop .undefined
    | some r =>
      if r ≠ 0 then .stop (.exited 1)
      else if arg.length + 1 < MAC_ADDRESS_LEN then .stop .undefined
      else addBlock st type MAC_ADDRESS_LEN ((arg ++ [0]).take MAC_ADDRESS_LEN)

/-- The body of the option loop for the option `opt` followed by its argument `arg`. -/
def handleOption (w : World) (st : MainState) (opt arg : Bytes) : Step :=
  if opt = cstr "-sn" then addString st SN_TYPE arg
  else if opt = cstr "-wifi_mac" then addMac st WIFI_MAC_TYPE arg true
  else if opt = cstr "-wifi_mac_no_check" then addMac st WIFI_MAC_TYPE arg false
  else if opt = cstr "-bt_mac" then addMac st BT_MAC_TYPE arg true
  else if opt = cstr "-bt_mac_no_check" then addMac st BT_MAC_TYPE arg false
  else if opt = cstr "-zb_mac" then addString st ZB_MAC_TYPE arg
  else if opt = cstr "-o" then
    if w.fopen arg then .next { st with fd := some arg } else .stop (.exited 1)
  else if opt = cstr "-test_checksum" then
    match atoi arg with
    | some v => .next { st with checksum_offset := v }
    | none => .stop .undefined
  else .stop (.exited 1)

/-- The loop `for(i = 1; i < argc; i++)` of `main` over the arguments
`argv[i ..]`.  An option in the last position has no argument (`++i == argc`),
and an unknown option is invalid: both call `exit(1)`. -/
def optionLoop (w : World) : List Bytes → MainState → Step
  | [], st => .next st
  | [_], _ => .stop (.exited 1)
  | opt :: arg :: rest, st =>
    match handleOption w st opt arg with
    | .stop o => .stop o
    | .next st' => optionLoop w rest st'

/-! ## main: the write phase -/

/-- One call `res = fwrite(buf, 1, n, fd)`, the `k`-th of the run, on a stream
positioned at the end of `file`, with the test that follows it: a short write
whose `errno` is not `EINTR` makes `main` return -1 (`Except.error`, with the
content of the file), any other result lets the run go on. -/
def fwriteChecked (w : World) (k : Nat) (buf : Bytes) (file : Bytes) : Except Bytes Bytes :=
  let res := min (w.fwrite k buf.length).1 buf.length
  let file' := file ++ buf.take res
  if res < buf.length ∧ (w.fwrite k buf.length).2 = false then .error file' else .ok file'

/-- The loop `for (i = 0; i < BLOCK_NUMBER; i++)` that writes the blocks:
`wlen = length + sizeof(PDATA_BLOCK_t)` bytes of each block, the `k`-th call of
`fwrite` first. -/
def writeBlocks (w : World) : Nat → List PDATA_BLOCK_t → Bytes → Except Bytes Bytes
  | _, [], file => .ok file
  | k, b :: bs, file =>
    match fwriteChecked w k
        (b.mem.take ((b.length + sizeof_PDATA_BLOCK_t) % 2 ^ 32)) file with
    | .error f => .error f
    | .ok f => writeBlocks w (k + 1) bs f

/-- The value `checksum` after `checksum += checksum_offset`, in `unsigned int`. -/
def addOffset (checksum : Nat) (checksum_offset : Int) : Nat :=
  (((checksum : Int) + checksum_offset) % 2 ^ 32).toNat

/-- The memory of `checksum_block` with the checksum copied into `data`. -/
def checksumBlock (checksum : Nat) : PDATA_BLOCK_t :=
  ⟨CHECK_SUM_TYPE, sizeof_unsigned_int, le32 checksum⟩

/-- The statements of `main` after the option loop: the header, the total
length and the blocks are written, the stream is read back from its start by
`calc_checksum`, and the checksum block is written.  Without an `-o` option
`fd` is NULL in every call. -/
def writeImage (w : World) (st : MainState) : Outcome :=
  match st.fd with
  | none => .undefined
  | some _ =>
    match fwriteChecked w 0 (le32 image_header) [] with
    | .error f => .returned (-1) f
    | .ok f1 =>
      match fwriteChecked w 1 (le32 st.total_data_len) f1 with
      | .error f => .returned (-1) f
      | .ok f2 =>
        match writeBlocks w 2 st.PDataBlock f2 with
        | .error f => .returned (-1) f
        | .ok f3 =>
          let checksum := addOffset (calc_checksum f3 0) st.checksum_offset
          match fwriteChecked w (2 + st.total_blocks)
              ((checksumBlock checksum).mem.take (sizeof_PDATA_BLOCK_t + sizeof_unsigned_int))
              f3 with
          | .error f => .returned (-1) f
          | .ok f4 => .returned 0 f4

/-- The statements of `main(argc, argv)` up to the end of the option loop:
the test for `-help` and the loop; `argv` lists `argv[0 .. argc - 1]`. -/
def readOptions (w : World) (argv : List Bytes) : Step :=
  if argv.length > 1 ∧ argv[1]? = some (cstr "-help") then .stop (.exited 0)
  else optionLoop w (argv.drop 1) MainState.init

/-- The function `main(argc, argv)`; `argv` lists `argv[0 .. argc - 1]`. -/
def main (w : World) (argv : List Bytes) : Outcome :=
  match readOptions w argv with
  | .stop o => o
  | .next st => writeImage w st

/-! ## Tokens of an address, as the specification counts them -/

/-- The non-empty tokens into which a string splits on `':'` (byte 58). -/
def tokens (s : Bytes) : List Bytes := (s.splitOn 58).filter (fun t => !t.isEmpty)

/-- The loop of `validateMacAddr` read over a list of tokens: with `index`
the value of the counter and `toks` the tokens not yet taken. -/
def tokenLoop (format_checking : Bool) : Nat → List Bytes → ValResult
  | index, [] => validateReturn index
  | index, p :: ps =>
    if index ≤ 6 then
      if format_checking && index == 2 && p != VALID_MARVELL_MAC_2 then .wrongToken index p
      else if format_checking && index == 3 && p != VALID_MARVELL_MAC_3 then .wrongToken index p
      else tokenLoop format_checking (index + 1) ps
    else validateReturn index

/-- The function `validateMacAddr` read over the list of tokens of its argument. -/
def validateTokens (format_checking : Bool) : List Bytes → ValResult
  | [] => if format_checking then .nullToken else tokenLoop format_checking 2 []
  | p :: ps =>
    if format_checking && p != VALID_MARVELL_MAC_1 then .wrongToken 1 p
    else tokenLoop format_checking 2 ps

/-! ## The layout of an image -/

/-- The sum of `8 + payload length` over a list of records. -/
def recordsSize (bs : List PDATA_BLOCK_t) : Nat := (bs.map (fun b => 8 + b.data.length)).sum

/-- The bytes that the block loop of `main` hands to `fwrite`, block after block. -/
def blocksBytes : List PDATA_BLOCK_t → Bytes
  | [] => []
  | b :: bs => b.mem.take ((b.length + sizeof_PDATA_BLOCK_t) % 2 ^ 32) ++ blocksBytes bs

/-- The bytes written before the checksum is computed: the header, the total
length and the blocks. -/
def imageBody (st : MainState) : Bytes :=
  le32 image_header ++ le32 st.total_data_len ++ blocksBytes st.PDataBlock

/-- The record that the branch of an identity option builds from its argument;
the options `-o` and `-test_checksum` build none. -/
def optionRecord (opt arg : Bytes) : List PDATA_BLOCK_t :=
  if opt = cstr "-sn" then [⟨SN_TYPE, arg.length % 2 ^ 32, arg.take (arg.length % 2 ^ 32)⟩]
  else if opt = cstr "-wifi_mac" ∨ opt = cstr "-wifi_mac_no_check" then
    [⟨WIFI_MAC_TYPE, MAC_ADDRESS_LEN, (arg ++ [0]).take MAC_ADDRESS_LEN⟩]
  else if opt = cstr "-bt_mac" ∨ opt = cstr "-bt_mac_no_check" then
    [⟨BT_MAC_TYPE, MAC_ADDRESS_LEN, (arg ++ [0]).take MAC_ADDRESS_LEN⟩]
  else if opt = cstr "-zb_mac" then
    [⟨ZB_MAC_TYPE, arg.length % 2 ^ 32, arg.take (arg.length % 2 ^ 32)⟩]
  else []

/-- The records of the identity options of an argument list, in the order in
which the options are given. -/
def optionRecords : List Bytes → List PDATA_BLOCK_t
  | opt :: arg :: rest => optionRecord opt arg ++ optionRecords rest
  | _ => []

/-- What the option loop keeps true of the locals of `main`: every block has
`length` equal to the size of its `data`, `total_data_len` is the size of the
records modulo `2 ^ 32`, and at most `BLOCK_NUMBER` blocks are held. -/
def MainState.Consistent (st : MainState) : Prop :=
  (∀ b ∈ st.PDataBlock, b.length = b.data.length ∧ b.length < 2 ^ 32)
  ∧ st.total_data_len = recordsSize st.PDataBlock % 2 ^ 32
  ∧ st.PDataBlock.length ≤ BLOCK_NUMBER

/-- The decimal numeral of an integer, the way a test offset is written on the
command line: a minus sign for a negative number, then the digits. -/
def decimal (k : Int) : Bytes :=
  if k < 0 then 45 :: (Nat.digits 10 k.natAbs).reverse.map (fun d => d + 48)
  else (Nat.digits 10 k.natAbs).reverse.map (fun d => d + 48)

/-- An environment whose first `fwrite` is interrupted: it transfers two bytes
and leaves `errno` at `EINTR`; every other write is complete. -/
def interruptedWorld : World :=
  ⟨fun _ => true, fun k n => if k = 0 then (2, true) else (n, false)⟩

/-- An environment whose first `fwrite` fails after two bytes with an `errno`
other than `EINTR`. -/
def failingWorld : World :=
  ⟨fun _ => true, fun k n => if k = 0 then (2, false) else (n, false)⟩

/-- Whether the loop body lets the run go on when the option `opt` with the
argument `arg` is the first option of a request, no block being held yet. -/
def acceptedAlone (w : World) (opt arg : Bytes) : Bool :=
  match handleOption w MainState.init opt arg with
  | .next _ => true
  | .stop _ => false

/-- Whether an argument list is made of options with their arguments, each
of them accepted when it is given alone. -/
def allAcceptedAlone (w : World) : List Bytes → Bool
  | [] => true
  | [_] => false
  | opt :: arg :: rest => acceptedAlone w opt arg && allAcceptedAlone w rest

/-! # Theorems -/

/-! ## strtok and the tokens of a string -/

theorem cstr_colon : cstr ":" = [58] := by decide

theorem strtok_colon (s : Bytes) :
    strtok s (cstr ":") =
      match s.dropWhile (fun c => c == 58) with
      | [] => (none, [])
      | c :: cs =>
        (some ((c :: cs).takeWhile (fun c => c != 58)),
         ((c :: cs).dropWhile (fun c => c != 58)).drop 1) := by
  have h1 : (fun c : Nat => List.elem c (cstr ":")) = (fun c => c == 58) := by
    funext c
    rw [cstr_colon]
    by_cases h : c = 58
    · subst h; rfl
    · have hb : (c == 58) = false := by simpa using h
      simp [List.elem, hb]
  have h2 : (fun c : Nat => !List.elem c (cstr ":")) = (fun c => c != 58) := by
    funext c
    have := congrFun h1 c
    simp only [this]; rfl
  unfold strtok
  rw [h1, h2]

theorem splitOn_eq_takeWhile (l : Bytes) :
    l.splitOn 58 = l.takeWhile (fun c => c != 58) ::
      (match l.dropWhile (fun c => c != 58) with
       | [] => []
       | _ :: r => r.splitOn 58) := by
  induction l with
  | nil => rfl
  | cons c l ih =>
    unfold List.splitOn at ih ⊢
    rw [List.splitOnP_cons]
    by_cases h : c = 58
    · subst h; simp
    · have hb : (c == 58) = false := by simpa using h
      have hn : (c != 58) = true := by simpa using h
      rw [ih]
      simp [hb, hn, List.takeWhile_cons, List.dropWhile_cons, List.modifyHead]

theorem tokens_nil : tokens [] = [] := by decide

theorem tokens_cons_colon (l : Bytes) : tokens (58 :: l) = tokens l := by
  unfold tokens List.splitOn
  rw [List.splitOnP_cons]
  simp

theorem tokens_dropWhile (s : Bytes) : tokens (s.dropWhile (fun c => c == 58)) = tokens s := by
  induction s with
  | nil => rfl
  | cons c s ih =>
    by_cases h : c = 58
    · subst h; simp [List.dropWhile_cons, tokens_cons_colon] at ih ⊢; exact ih
    · have hb : (c == 58) = false := by simpa using h
      simp [List.dropWhile_cons, hb]

theorem tokens_cons_of_ne (c : Nat) (cs : Bytes) (h : c ≠ 58) :
    tokens (c :: cs) = (c :: cs).takeWhile (fun c => c != 58) ::
      tokens (((c :: cs).dropWhile (fun c => c != 58)).drop 1) := by
  have hn : (c != 58) = true := by simpa using h
  unfold tokens
  rw [splitOn_eq_takeWhile (c :: cs)]
  rw [List.filter_cons]
  have : (!((c :: cs).takeWhile (fun c => c != 58)).isEmpty) = true := by
    simp [List.takeWhile_cons, hn]
  rw [if_pos this]
  congr 1
  cases hd : (c :: cs).dropWhile (fun c => c != 58) with
  | nil => simp
  | cons x r => simp

theorem strtok_none (s olds : Bytes) (h : strtok s (cstr ":") = (none, olds)) :
    tokens s = [] ∧ olds = [] := by
  rw [strtok_colon] at h
  cases hd : s.dropWhile (fun c => c == 58) with
  | nil =>
    rw [hd] at h
    have := tokens_dropWhile s
    rw [hd] at this
    simp at h
    exact ⟨by rw [← this]; rfl, h⟩
  | cons c cs => rw [hd] at h; simp at h

theorem strtok_some (s p olds : Bytes) (h : strtok s (cstr ":") = (some p, olds)) :
    tokens s = p :: tokens olds := by
  rw [strtok_colon] at h
  cases hd : s.dropWhile (fun c => c == 58) with
  | nil => rw [hd] at h; simp at h
  | cons c cs =>
    rw [hd] at h
    have hc : c ≠ 58 := by
      have := List.head_dropWhile_not (fun c => c == 58) s (by rw [hd]; simp)
      simpa [hd] using this
    have ht := tokens_dropWhile s
    rw [hd, tokens_cons_of_ne c cs hc] at ht
    simp only [Prod.mk.injEq, Option.some.injEq] at h
    rw [← ht, h.1, h.2]

/-! ## validateMacAddr over tokens -/

theorem validateLoop_eq (fc : Bool) (fuel index : Nat) (olds : Bytes) (h : 7 ≤ fuel + index) :
    validateLoop fc fuel index olds = tokenLoop fc index (tokens olds) := by
  induction fuel generalizing index olds with
  | zero =>
    have h7 : ¬ index ≤ 6 := by omega
    cases ht : tokens olds with
    | nil => simp [validateLoop, tokenLoop]
    | cons p ps => simp [validateLoop, tokenLoop, h7]
  | succ fuel ih =>
    unfold validateLoop
    rcases hs : strtok olds (cstr ":") with ⟨_ | p, olds'⟩
    · rw [(strtok_none olds olds' hs).1]; simp [tokenLoop]
    · rw [strtok_some olds p olds' hs]
      simp only [tokenLoop]
      by_cases h6 : index ≤ 6
      · simp only [h6, if_true]
        rw [ih (index + 1) olds' (by omega)]
      · simp [h6]

theorem validateLoop_fuel (fc : Bool) (fuel index : Nat) (olds : Bytes) (h : 7 ≤ fuel + index) :
    validateLoop fc (fuel + 1) index olds = validateLoop fc fuel index olds := by
  rw [validateLoop_eq fc fuel index olds h, validateLoop_eq fc (fuel + 1) index olds (by omega)]

theorem validateMacAddr_eq (s : Bytes) (fc : Bool) :
    validateMacAddr s fc = validateTokens fc (tokens s) := by
  unfold validateMacAddr
  rcases hs : strtok s (cstr ":") with ⟨_ | p, olds⟩
  · obtain ⟨h1, h2⟩ := strtok_none s olds hs
    rw [h1]
    simp only [validateTokens]
    rw [validateLoop_eq fc 6 2 olds (by omega), h2, tokens_nil]
  · rw [strtok_some s p olds hs]
    simp only [validateTokens]
    rw [validateLoop_eq fc 6 2 olds (by omega)]

/-! ## Properties of the loop over tokens -/

theorem tokenLoop_short (fc : Bool) (index : Nat) (toks : List Bytes)
    (h : index + toks.length < 7) : (tokenLoop fc index toks).ret = some (-1) := by
  induction toks generalizing index with
  | nil =>
    have : index ≠ 7 := by simp at h; omega
    simp [tokenLoop, validateReturn, this, ValResult.ret]
  | cons p ps ih =>
    simp only [List.length_cons] at h
    have h6 : index ≤ 6 := by omega
    simp only [tokenLoop, h6, if_true]
    split
    · rfl
    · split
      · rfl
      · exact ih (index + 1) (by omega)

theorem tokenLoop_no_check (index : Nat) (toks : List Bytes) (h : index ≤ 7) :
    tokenLoop false index toks =
      if 7 ≤ index + toks.length then .ok else .wrongCount := by
  induction toks generalizing index with
  | nil =>
    by_cases h7 : index = 7
    · simp [tokenLoop, validateReturn, h7]
    · have : ¬ 7 ≤ index := by omega
      simp [tokenLoop, validateReturn, h7, this]
  | cons p ps ih =>
    by_cases h6 : index ≤ 6
    · simp only [tokenLoop, h6, if_true, Bool.false_and, List.length_cons]
      rw [if_neg (by simp), if_neg (by simp), ih (index + 1) (by omega)]
      congr 1
      apply propext
      omega
    · have h7 : index = 7 := by omega
      subst h7
      simp [tokenLoop, validateReturn]

theorem validateTokens_no_check (toks : List Bytes) :
    validateTokens false toks = if 6 ≤ toks.length then .ok else .wrongCount := by
  cases toks with
  | nil => simp [validateTokens, tokenLoop, validateReturn]
  | cons p ps =>
    simp only [validateTokens, Bool.false_and, List.length_cons]
    rw [if_neg (by simp), tokenLoop_no_check 2 ps (by omega)]
    congr 1
    apply propext
    omega

theorem validateTokens_strict_ok (toks : List Bytes) (h : validateTokens true toks = .ok) :
    ∃ rest, toks = VALID_MARVELL_MAC_1 :: VALID_MARVELL_MAC_2 :: VALID_MARVELL_MAC_3 :: rest := by
  match toks with
  | [] => simp [validateTokens] at h
  | [p] =>
    simp only [validateTokens, tokenLoop, validateReturn] at h
    split at h <;> simp at h
  | [p, q] =>
    simp only [validateTokens, tokenLoop, validateReturn] at h
    split at h
    · simp at h
    · simp only [show (2 : Nat) ≤ 6 by omega, if_true] at h
      split at h
      · simp at h
      · split at h <;> simp at h
  | p :: q :: r :: rest =>
    simp only [validateTokens, tokenLoop] at h
    by_cases hp : p = VALID_MARVELL_MAC_1
    · by_cases hq : q = VALID_MARVELL_MAC_2
      · by_cases hr : r = VALID_MARVELL_MAC_3
        · exact ⟨rest, by rw [hp, hq, hr]⟩
        · simp [hp, hq, hr] at h
      · simp [hp, hq] at h
    · simp [hp] at h

/-! ## Claims on validateMacAddr -/

/-- C5. An address with more than six tokens is not rejected: the loop of
`validateMacAddr` stops counting at the sixth token and `index == 7` holds.
The address `00:50:43:12:34:56:78` of the specification has seven tokens and
`validateMacAddr` returns 0 on it in both modes; so it does on the seven-token
address `00:50:43:1:2:3:4`, which `main` then stores in a WifiMac record. -/
theorem validateMacAddr_seven_tokens_returns_zero :
    (tokens (cstr "00:50:43:12:34:56:78")).length = 7
    ∧ (validateMacAddr (cstr "00:50:43:12:34:56:78") true).ret = some 0
    ∧ (validateMacAddr (cstr "00:50:43:12:34:56:78") false).ret = some 0
    ∧ (tokens (cstr "00:50:43:1:2:3:4")).length = 7
    ∧ (validateMacAddr (cstr "00:50:43:1:2:3:4") true).ret = some 0
    ∧ main idealWorld [cstr "mkpdimg", cstr "-wifi_mac", cstr "00:50:43:1:2:3:4",
        cstr "-o", cstr "out.img"]
      = .returned 0
          (le32 image_header ++ le32 25
            ++ (PDATA_BLOCK_t.mk WIFI_MAC_TYPE 17 (cstr "00:50:43:1:2:3:4" ++ [0])).mem
            ++ (checksumBlock 1187).mem) := by
  decide

/-- C6. An address with at least one and fewer than six tokens is rejected in
both modes: `validateMacAddr` returns -1. -/
theorem validateMacAddr_fewer_than_six (mac_addr : Bytes) (format_checking : Bool)
    (h1 : 1 ≤ (tokens mac_addr).length) (h6 : (tokens mac_addr).length < 6) :
    (validateMacAddr mac_addr format_checking).ret = some (-1) := by
  rw [validateMacAddr_eq]
  cases ht : tokens mac_addr with
  | nil => rw [ht] at h1; simp at h1
  | cons p ps =>
    rw [ht] at h6
    simp only [List.length_cons] at h6
    simp only [validateTokens]
    split
    · rfl
    · exact tokenLoop_short format_checking 2 ps (by omega)

/-- C6 at the address `00:50:43:12:34` in strict mode. -/
theorem validateMacAddr_fewer_than_six_witness :
    (1 ≤ (tokens (cstr "00:50:43:12:34")).length ∧ (tokens (cstr "00:50:43:12:34")).length < 6)
    ∧ (validateMacAddr (cstr "00:50:43:12:34") true).ret = some (-1) :=
  ⟨by decide, validateMacAddr_fewer_than_six (cstr "00:50:43:12:34") true (by decide) (by decide)⟩

/-- C7. An address that ends in `':'` is not rejected when six tokens precede
the colon: `strtok` skips the empty token.  `validateMacAddr` returns 0 on
`00:50:43:12:34:56:` in both modes, and on the 17-byte `00:50:43:1:34:56:`,
which `main` then stores in a WifiMac record. -/
theorem validateMacAddr_trailing_colon_returns_zero :
    (validateMacAddr (cstr "00:50:43:12:34:56:") true).ret = some 0
    ∧ (validateMacAddr (cstr "00:50:43:12:34:56:") false).ret = some 0
    ∧ (validateMacAddr (cstr "00:50:43:1:34:56:") true).ret = some 0
    ∧ main idealWorld [cstr "mkpdimg", cstr "-wifi_mac", cstr "00:50:43:1:34:56:",
        cstr "-o", cstr "out.img"]
      = .returned 0
          (le32 image_header ++ le32 25
            ++ (PDATA_BLOCK_t.mk WIFI_MAC_TYPE 17 (cstr "00:50:43:1:34:56:")).mem
            ++ (checksumBlock 1244).mem) := by
  decide

/-- C8. In strict mode `validateMacAddr` returns 0 only on an address whose
first three tokens are `00`, `50` and `43`; when the first token of the three
that differs is token `i`, the call reports index `i` and returns -1.  It
returns 0 on `00:50:43:12:34:56` and reports index 1 on `01:50:43:12:34:56`. -/
theorem validateMacAddr_strict (mac_addr : Bytes) :
    (validateMacAddr mac_addr true = .ok →
      ∃ rest, tokens mac_addr = cstr "00" :: cstr "50" :: cstr "43" :: rest)
    ∧ (∀ t1 rest, tokens mac_addr = t1 :: rest → t1 ≠ cstr "00" →
        validateMacAddr mac_addr true = .wrongToken 1 t1)
    ∧ (∀ t2 rest, tokens mac_addr = cstr "00" :: t2 :: rest → t2 ≠ cstr "50" →
        validateMacAddr mac_addr true = .wrongToken 2 t2)
    ∧ (∀ t3 rest, tokens mac_addr = cstr "00" :: cstr "50" :: t3 :: rest → t3 ≠ cstr "43" →
        validateMacAddr mac_addr true = .wrongToken 3 t3)
    ∧ (∀ i r, validateMacAddr mac_addr true = .wrongToken i r →
        (validateMacAddr mac_addr true).ret = some (-1))
    ∧ validateMacAddr (cstr "00:50:43:12:34:56") true = .ok
    ∧ validateMacAddr (cstr "01:50:43:12:34:56") true = .wrongToken 1 (cstr "01") := by
  refine ⟨?_, ?_, ?_, ?_, ?_, by decide, by decide⟩
  · intro h
    rw [validateMacAddr_eq] at h
    exact validateTokens_strict_ok _ h
  · intro t1 rest ht hne
    rw [validateMacAddr_eq, ht]
    have : t1 ≠ VALID_MARVELL_MAC_1 := hne
    simp [validateTokens, this]
  · intro t2 rest ht hne
    rw [validateMacAddr_eq, ht]
    have h2 : t2 ≠ VALID_MARVELL_MAC_2 := hne
    have h1 : cstr "00" = VALID_MARVELL_MAC_1 := rfl
    simp [validateTokens, tokenLoop, h1, h2]
  · intro t3 rest ht hne
    rw [validateMacAddr_eq, ht]
    have h3 : t3 ≠ VALID_MARVELL_MAC_3 := hne
    have h1 : cstr "00" = VALID_MARVELL_MAC_1 := rfl
    have h2 : cstr "50" = VALID_MARVELL_MAC_2 := rfl
    simp [validateTokens, tokenLoop, h1, h2, h3]
  · intro i r h
    rw [h]; rfl

/-- C9. In non-strict mode `validateMacAddr` returns 0 on every address made
of six non-empty tokens joined by single colons, whatever the tokens hold. -/
theorem validateMacAddr_no_check_six (toks : List Bytes) (hlen : toks.length = 6)
    (hne : ∀ t ∈ toks, t ≠ []) (hcolon : ∀ t ∈ toks, 58 ∉ t) :
    validateMacAddr (List.intercalate [58] toks) false = .ok
    ∧ (validateMacAddr (List.intercalate [58] toks) false).ret = some 0 := by
  have hnil : toks ≠ [] := by
    intro h; rw [h] at hlen; simp at hlen
  have hsplit : (List.intercalate [58] toks).splitOn 58 = toks :=
    List.splitOn_intercalate toks 58 hcolon hnil
  have htok : tokens (List.intercalate [58] toks) = toks := by
    unfold tokens
    rw [hsplit, List.filter_eq_self]
    intro t ht
    have := hne t ht
    cases t with
    | nil => exact absurd rfl this
    | cons a l => rfl
  have hok : validateMacAddr (List.intercalate [58] toks) false = .ok := by
    rw [validateMacAddr_eq, htok, validateTokens_no_check, if_pos (by omega)]
  exact ⟨hok, by rw [hok]; rfl⟩

/-- C9 at the address `01:50:43:12:34:56`. -/
theorem validateMacAddr_no_check_six_witness :
    List.intercalate [58] [cstr "01", cstr "50", cstr "43", cstr "12", cstr "34", cstr "56"]
      = cstr "01:50:43:12:34:56"
    ∧ validateMacAddr (cstr "01:50:43:12:34:56") false = .ok :=
  ⟨by decide,
   (validateMacAddr_no_check_six
      [cstr "01", cstr "50", cstr "43", cstr "12", cstr "34", cstr "56"]
      (by decide) (by decide) (by decide)).1⟩

/-! ## Words in memory -/

theorem le32_length (v : Nat) : (le32 v).length = 4 := rfl

theorem rd32_le32 (v : Nat) (rest : Bytes) : rd32 (le32 v ++ rest) 0 = v % 2 ^ 32 := by
  simp [rd32, le32]
  omega

theorem rd32_append (a b : Bytes) (k : Nat) : rd32 (a ++ b) (a.length + k) = rd32 b k := by
  unfold rd32
  rw [List.getD_append_right _ _ _ _ (by omega), List.getD_append_right _ _ _ _ (by omega),
    List.getD_append_right _ _ _ _ (by omega), List.getD_append_right _ _ _ _ (by omega)]
  have e0 : a.length + k - a.length = k := by omega
  have e1 : a.length + k + 1 - a.length = k + 1 := by omega
  have e2 : a.length + k + 2 - a.length = k + 2 := by omega
  have e3 : a.length + k + 3 - a.length = k + 3 := by omega
  rw [e0, e1, e2, e3]

theorem calc_checksum_lt (bs : Bytes) (seed : Nat) (h : seed < 2 ^ 32) :
    calc_checksum bs seed < 2 ^ 32 := by
  induction bs generalizing seed with
  | nil => exact h
  | cons b bs ih => exact ih _ (Nat.mod_lt _ (by norm_num))

theorem addOffset_zero (c : Nat) (h : c < 2 ^ 32) : addOffset c 0 = c := by
  unfold addOffset
  omega

theorem addOffset_lt (c : Nat) (k : Int) : addOffset c k < 2 ^ 32 := by
  unfold addOffset
  omega

/-! ## The write phase when every write is complete -/

theorem idealWorld_reliable : idealWorld.reliable := fun _ _ => rfl

theorem fwriteChecked_reliable (w : World) (hw : w.reliable) (k : Nat) (buf file : Bytes) :
    fwriteChecked w k buf file = .ok (file ++ buf) := by
  unfold fwriteChecked
  simp [hw k buf.length]

theorem writeBlocks_reliable (w : World) (hw : w.reliable) (k : Nat) (bs : List PDATA_BLOCK_t)
    (file : Bytes) : writeBlocks w k bs file = .ok (file ++ blocksBytes bs) := by
  induction bs generalizing k file with
  | nil => simp [writeBlocks, blocksBytes]
  | cons b bs ih =>
    simp only [writeBlocks, blocksBytes, fwriteChecked_reliable w hw]
    rw [ih]
    simp

theorem checksumBlock_mem (c : Nat) :
    (checksumBlock c).mem.take (sizeof_PDATA_BLOCK_t + sizeof_unsigned_int)
      = le32 CHECK_SUM_TYPE ++ le32 4 ++ le32 c := by
  rfl

theorem writeImage_reliable (w : World) (hw : w.reliable) (st : MainState)
    (hfd : st.fd ≠ none) :
    writeImage w st = .returned 0 (imageBody st ++
      (le32 CHECK_SUM_TYPE ++ le32 4
        ++ le32 (addOffset (calc_checksum (imageBody st) 0) st.checksum_offset))) := by
  unfold writeImage
  cases hf : st.fd with
  | none => exact absurd hf hfd
  | some path =>
    simp only [fwriteChecked_reliable w hw, writeBlocks_reliable w hw, checksumBlock_mem]
    simp [imageBody]

/-! ## The option loop -/

theorem recordsSize_append (as bs : List PDATA_BLOCK_t) :
    recordsSize (as ++ bs) = recordsSize as + recordsSize bs := by
  simp [recordsSize]

theorem addBlock_next (st st' : MainState) (type length : Nat) (data : Bytes)
    (h : addBlock st type length data = .next st') :
    st'.PDataBlock = st.PDataBlock ++ [⟨type, length, data⟩]
    ∧ st'.total_data_len
        = (st.total_data_len + (length + sizeof_PDATA_BLOCK_t) % 2 ^ 32) % 2 ^ 32
    ∧ st'.fd = st.fd ∧ st'.checksum_offset = st.checksum_offset
    ∧ st.PDataBlock.length < BLOCK_NUMBER := by
  unfold addBlock at h
  split at h
  · rename_i hlt
    injection h with h
    subst h
    exact ⟨rfl, rfl, rfl, rfl, hlt⟩
  · cases h

theorem addBlock_consistent (st st' : MainState) (type length : Nat) (data : Bytes)
    (hlen : length = data.length) (hlt : length < 2 ^ 32) (hc : st.Consistent)
    (h : addBlock st type length data = .next st') : st'.Consistent := by
  obtain ⟨hb, ht, -, -, hn⟩ := addBlock_next st st' type length data h
  obtain ⟨c1, c2, c3⟩ := hc
  refine ⟨?_, ?_, ?_⟩
  · intro b hmem
    rw [hb, List.mem_append, List.mem_singleton] at hmem
    rcases hmem with hmem | hmem
    · exact c1 b hmem
    · subst hmem; exact ⟨hlen, hlt⟩
  · rw [ht, hb, recordsSize_append, c2]
    simp only [recordsSize, List.map_cons, List.map_nil, List.sum_cons, List.sum_nil,
      sizeof_PDATA_BLOCK_t, ← hlen]
    omega
  · rw [hb, List.length_append]
    simp only [List.length_singleton]
    omega

theorem addString_next (st st' : MainState) (type : Nat) (arg : Bytes)
    (h : addString st type arg = .next st') :
    st'.PDataBlock
        = st.PDataBlock ++ [⟨type, arg.length % 2 ^ 32, arg.take (arg.length % 2 ^ 32)⟩]
    ∧ st'.fd = st.fd ∧ st'.checksum_offset = st.checksum_offset
    ∧ (st.Consistent → st'.Consistent) := by
  unfold addString at h
  obtain ⟨hb, -, hf, ho, -⟩ := addBlock_next _ _ _ _ _ h
  refine ⟨hb, hf, ho, fun hc => addBlock_consistent _ _ _ _ _ ?_ ?_ hc h⟩
  · rw [List.length_take]
    have := Nat.mod_le arg.length (2 ^ 32)
    omega
  · exact Nat.mod_lt _ (by norm_num)

theorem addMac_next (st st' : MainState) (type : Nat) (arg : Bytes) (fc : Bool)
    (h : addMac st type arg fc = .next st') :
    st'.PDataBlock
        = st.PDataBlock ++ [⟨type, MAC_ADDRESS_LEN, (arg ++ [0]).take MAC_ADDRESS_LEN⟩]
    ∧ st'.fd = st.fd ∧ st'.checksum_offset = st.checksum_offset
    ∧ (st.Consistent → st'.Consistent)
    ∧ validateMacAddr arg fc = .ok
    ∧ (arg.length = 16 ∨ arg.length = 17) := by
  unfold addMac at h
  split at h
  · cases h
  · rename_i h18
    split at h
    · cases h
    · rename_i r hr
      split at h
      · cases h
      · rename_i hr0
        split at h
        · cases h
        · rename_i h16
          obtain ⟨hb, -, hf, ho, -⟩ := addBlock_next _ _ _ _ _ h
          have hlen : arg.length = 16 ∨ arg.length = 17 := by
            simp only [MAC_ADDRESS_LEN] at h18 h16
            omega
          refine ⟨hb, hf, ho, fun hc => addBlock_consistent _ _ _ _ _ ?_ ?_ hc h, ?_, hlen⟩
          · rw [List.length_take, List.length_append]
            simp only [MAC_ADDRESS_LEN, List.length_singleton]
            omega
          · simp [MAC_ADDRESS_LEN]
          · have hr0' : r = 0 := by simpa using hr0
            subst hr0'
            cases hv : validateMacAddr arg fc with
            | ok => rfl
            | wrongToken i p => rw [hv] at hr; simp [ValResult.ret] at hr
            | wrongCount => rw [hv] at hr; simp [ValResult.ret] at hr
            | nullToken => rw [hv] at hr; simp [ValResult.ret] at hr

theorem handleOption_next (w : World) (st st' : MainState) (opt arg : Bytes)
    (h : handleOption w st opt arg = .next st') :
    st'.PDataBlock = st.PDataBlock ++ optionRecord opt arg
    ∧ (st.Consistent → st'.Consistent) := by
  unfold handleOption at h
  unfold optionRecord
  by_cases h1 : opt = cstr "-sn"
  · rw [if_pos h1] at h ⊢
    obtain ⟨hb, -, -, hc⟩ := addString_next _ _ _ _ h
    exact ⟨hb, hc⟩
  rw [if_neg h1] at h ⊢
  by_cases h2 : opt = cstr "-wifi_mac"
  · rw [if_pos h2] at h
    rw [if_pos (Or.inl h2)]
    obtain ⟨hb, -, -, hc, -, -⟩ := addMac_next _ _ _ _ _ h
    exact ⟨hb, hc⟩
  rw [if_neg h2] at h
  by_cases h3 : opt = cstr "-wifi_mac_no_check"
  · rw [if_pos h3] at h
    rw [if_pos (Or.inr h3)]
    obtain ⟨hb, -, -, hc, -, -⟩ := addMac_next _ _ _ _ _ h
    exact ⟨hb, hc⟩
  rw [if_neg h3] at h
  rw [if_neg (not_or.mpr ⟨h2, h3⟩)]
  by_cases h4 : opt = cstr "-bt_mac"
  · rw [if_pos h4] at h
    rw [if_pos (Or.inl h4)]
    obtain ⟨hb, -, -, hc, -, -⟩ := addMac_next _ _ _ _ _ h
    exact ⟨hb, hc⟩
  rw [if_neg h4] at h
  by_cases h5 : opt = cstr "-bt_mac_no_check"
  · rw [if_pos h5] at h
    rw [if_pos (Or.inr h5)]
    obtain ⟨hb, -, -, hc, -, -⟩ := addMac_next _ _ _ _ _ h
    exact ⟨hb, hc⟩
  rw [if_neg h5] at h
  rw [if_neg (not_or.mpr ⟨h4, h5⟩)]
  by_cases h6 : opt = cstr "-zb_mac"
  · rw [if_pos h6] at h ⊢
    obtain ⟨hb, -, -, hc⟩ := addString_next _ _ _ _ h
    exact ⟨hb, hc⟩
  rw [if_neg h6] at h ⊢
  by_cases h7 : opt = cstr "-o"
  · rw [if_pos h7] at h
    split at h
    · injection h with h
      subst h
      exact ⟨by simp, fun hc => hc⟩
    · cases h
  rw [if_neg h7] at h
  by_cases h8 : opt = cstr "-test_checksum"
  · rw [if_pos h8] at h
    split at h
    · injection h with h
      subst h
      exact ⟨by simp, fun hc => hc⟩
    · cases h
  rw [if_neg h8] at h
  cases h

theorem optionLoop_next (w : World) :
    ∀ (args : List Bytes) (st st' : MainState), optionLoop w args st = .next st' →
      st'.PDataBlock = st.PDataBlock ++ optionRecords args
      ∧ (st.Consistent → st'.Consistent)
  | [], st, st', h => by
    simp only [optionLoop] at h
    injection h with h
    subst h
    exact ⟨by simp [optionRecords], fun hc => hc⟩
  | [_], st, st', h => by
    simp only [optionLoop] at h
    cases h
  | opt :: arg :: rest, st, st', h => by
    simp only [optionLoop] at h
    cases hs : handleOption w st opt arg with
    | stop o => rw [hs] at h; cases h
    | next st1 =>
      rw [hs] at h
      obtain ⟨hb1, hc1⟩ := handleOption_next w st st1 opt arg hs
      obtain ⟨hb2, hc2⟩ := optionLoop_next w rest st1 st' h
      refine ⟨?_, fun hc => hc2 (hc1 hc)⟩
      rw [hb2, hb1, optionRecords, List.append_assoc]

theorem init_consistent : MainState.init.Consistent := by
  refine ⟨?_, ?_, ?_⟩
  · intro b hb; cases hb
  · rfl
  · decide

theorem readOptions_next (w : World) (argv : List Bytes) (st : MainState)
    (h : readOptions w argv = .next st) :
    optionLoop w (argv.drop 1) MainState.init = .next st
    ∧ st.PDataBlock = optionRecords (argv.drop 1) ∧ st.Consistent := by
  unfold readOptions at h
  split at h
  · cases h
  · obtain ⟨hb, hc⟩ := optionLoop_next w _ _ _ h
    refine ⟨h, ?_, hc init_consistent⟩
    rw [hb]
    rfl

/-! ## The image of a consistent state -/

theorem mem_length (b : PDATA_BLOCK_t) : b.mem.length = 8 + b.data.length := by
  rw [PDATA_BLOCK_t.mem, List.length_append, List.length_append, le32_length, le32_length]

theorem blocksBytes_eq (bs : List PDATA_BLOCK_t)
    (hlen : ∀ b ∈ bs, b.length = b.data.length ∧ b.length < 2 ^ 32)
    (hsum : recordsSize bs < 2 ^ 32) :
    blocksBytes bs = (bs.map PDATA_BLOCK_t.mem).flatten
    ∧ (blocksBytes bs).length = recordsSize bs := by
  induction bs with
  | nil => exact ⟨rfl, rfl⟩
  | cons b bs ih =>
    have hcons : recordsSize (b :: bs) = 8 + b.data.length + recordsSize bs := by
      simp [recordsSize]
    rw [hcons] at hsum
    obtain ⟨ih1, ih2⟩ := ih (fun x hx => hlen x (List.mem_cons_of_mem _ hx)) (by omega)
    have hb := (hlen b (List.mem_cons_self _ _)).1
    have hw : (b.length + sizeof_PDATA_BLOCK_t) % 2 ^ 32 = b.mem.length := by
      rw [mem_length, hb, sizeof_PDATA_BLOCK_t]
      omega
    have ht : b.mem.take ((b.length + sizeof_PDATA_BLOCK_t) % 2 ^ 32) = b.mem := by
      rw [hw, List.take_length]
    refine ⟨?_, ?_⟩
    · simp only [blocksBytes, ht, ih1, List.map_cons, List.flatten_cons]
    · simp only [blocksBytes, ht, List.length_append, ih2, mem_length, hcons]

theorem imageBody_length (st : MainState) (hc : st.Consistent)
    (hsum : recordsSize st.PDataBlock < 2 ^ 32) :
    st.total_data_len = recordsSize st.PDataBlock
    ∧ (imageBody st).length = 8 + recordsSize st.PDataBlock := by
  obtain ⟨c1, c2, -⟩ := hc
  have ht : st.total_data_len = recordsSize st.PDataBlock := by
    rw [c2]; exact Nat.mod_eq_of_lt hsum
  refine ⟨ht, ?_⟩
  simp only [imageBody, List.length_append, le32_length, (blocksBytes_eq _ c1 hsum).2]

/-- The image that `main` leaves when every write is complete. -/
theorem main_reliable (w : World) (hw : w.reliable) (argv : List Bytes) (st : MainState)
    (hread : readOptions w argv = .next st) (hfd : st.fd ≠ none) :
    main w argv = .returned 0 (imageBody st ++
      (le32 CHECK_SUM_TYPE ++ le32 4
        ++ le32 (addOffset (calc_checksum (imageBody st) 0) st.checksum_offset))) := by
  unfold main
  rw [hread]
  exact writeImage_reliable w hw st hfd

theorem image_total_word (st : MainState) (rest : Bytes) :
    rd32 (imageBody st ++ rest) 4 = st.total_data_len % 2 ^ 32 := by
  have := rd32_append (le32 image_header)
    (le32 st.total_data_len ++ (blocksBytes st.PDataBlock ++ rest)) 0
  simp only [le32_length, Nat.add_zero] at this
  simp only [imageBody, List.append_assoc]
  rw [this, rd32_le32]

theorem image_length (body : Bytes) (c : Nat) :
    (body ++ (le32 CHECK_SUM_TYPE ++ le32 4 ++ le32 c)).length = body.length + 12 := by
  simp only [List.length_append, le32_length]

theorem image_checksum_word (body : Bytes) (c : Nat) :
    rd32 (body ++ (le32 CHECK_SUM_TYPE ++ le32 4 ++ le32 c))
      ((body ++ (le32 CHECK_SUM_TYPE ++ le32 4 ++ le32 c)).length - 4) = c % 2 ^ 32 := by
  have hl : (body ++ (le32 CHECK_SUM_TYPE ++ le32 4 ++ le32 c)).length - 4
      = (body ++ (le32 CHECK_SUM_TYPE ++ le32 4)).length + 0 := by
    simp only [List.length_append, le32_length]
    omega
  have ha : body ++ (le32 CHECK_SUM_TYPE ++ le32 4 ++ le32 c)
      = (body ++ (le32 CHECK_SUM_TYPE ++ le32 4)) ++ (le32 c ++ []) := by
    simp only [List.append_assoc, List.append_nil]
  rw [hl, ha, rd32_append, rd32_le32]

theorem image_take_body (body tail : Bytes) :
    (body ++ tail).take body.length = body := by
  simp

/-- The image in terms of the blocks held at the end of the option loop. -/
theorem main_image (w : World) (hw : w.reliable)
    (argv : List Bytes) (st : MainState) (hread : readOptions w argv = .next st)
    (hfd : st.fd ≠ none) (hsum : recordsSize st.PDataBlock < 2 ^ 32) :
    ∃ c, main w argv = .returned 0
        (le32 image_header ++ le32 (recordsSize st.PDataBlock)
          ++ (st.PDataBlock.map PDATA_BLOCK_t.mem).flatten ++ (checksumBlock c).mem) := by
  obtain ⟨-, -, hc⟩ := readOptions_next w argv st hread
  obtain ⟨ht, -⟩ := imageBody_length st hc hsum
  refine ⟨addOffset (calc_checksum (imageBody st) 0) st.checksum_offset, ?_⟩
  rw [main_reliable w hw argv st hread hfd]
  have hbody : imageBody st = le32 image_header ++ le32 (recordsSize st.PDataBlock)
      ++ (st.PDataBlock.map PDATA_BLOCK_t.mem).flatten := by
    unfold imageBody
    rw [ht, (blocksBytes_eq _ hc.1 hsum).1]
  rw [hbody]
  rfl

/-! ## Claims on the image -/

/-- C1. When the option loop ends with an output file open and the sizes
`8 + payload length` of the records it added sum below `2 ^ 32`, at most four
records were added, `main` returns 0, the word at offset 4 of the image is that
sum, and the image is `8 + total_payload_length + 12` bytes long. -/
theorem total_payload_length_and_image_size (w : World) (hw : w.reliable)
    (argv : List Bytes) (st : MainState) (hread : readOptions w argv = .next st)
    (hfd : st.fd ≠ none) (hsum : recordsSize st.PDataBlock < 2 ^ 32) :
    st.PDataBlock.length ≤ 4
    ∧ ∃ img, main w argv = .returned 0 img
        ∧ rd32 img 4 = recordsSize st.PDataBlock
        ∧ img.length = 8 + rd32 img 4 + 12 := by
  obtain ⟨-, -, hc⟩ := readOptions_next w argv st hread
  obtain ⟨ht, hl⟩ := imageBody_length st hc hsum
  refine ⟨hc.2.2, _, main_reliable w hw argv st hread hfd, ?_, ?_⟩
  · rw [image_total_word, ht]
    exact Nat.mod_eq_of_lt hsum
  · rw [image_total_word, ht, Nat.mod_eq_of_lt hsum, image_length, hl]

/-- C1 at the request `-zb_mac 0a1b -bt_mac 00:50:43:ab:cd:ef -o pd.img`. -/
theorem total_payload_length_and_image_size_witness :
    (idealWorld.reliable
      ∧ readOptions idealWorld [cstr "mkpdimg", cstr "-zb_mac", cstr "0a1b", cstr "-bt_mac",
          cstr "00:50:43:ab:cd:ef", cstr "-o", cstr "pd.img"]
        = .next ⟨[⟨ZB_MAC_TYPE, 4, cstr "0a1b"⟩, ⟨BT_MAC_TYPE, 17, cstr "00:50:43:ab:cd:ef"⟩],
            some (cstr "pd.img"), 0, 37⟩)
    ∧ ((2 : Nat) ≤ 4
      ∧ ∃ img, main idealWorld [cstr "mkpdimg", cstr "-zb_mac", cstr "0a1b", cstr "-bt_mac",
          cstr "00:50:43:ab:cd:ef", cstr "-o", cstr "pd.img"] = .returned 0 img
        ∧ rd32 img 4 = 37 ∧ img.length = 8 + rd32 img 4 + 12) :=
  ⟨⟨idealWorld_reliable, by decide⟩,
   total_payload_length_and_image_size idealWorld idealWorld_reliable
     [cstr "mkpdimg", cstr "-zb_mac", cstr "0a1b", cstr "-bt_mac",
       cstr "00:50:43:ab:cd:ef", cstr "-o", cstr "pd.img"]
     ⟨[⟨ZB_MAC_TYPE, 4, cstr "0a1b"⟩, ⟨BT_MAC_TYPE, 17, cstr "00:50:43:ab:cd:ef"⟩],
       some (cstr "pd.img"), 0, 37⟩
     (by decide) (by decide) (by decide)⟩

/-- C2. When the option loop ends with an output file open and test offset 0,
`main` returns 0 and `calc_checksum` with seed 0 over all the bytes of the image
before its last twelve, the checksum record, returns the word stored in the last
four bytes; these are the bytes `[0, 8 + total_payload_length)` when the record
sizes sum below `2 ^ 32`. -/
theorem checksum_reproduced (w : World) (hw : w.reliable)
    (argv : List Bytes) (st : MainState) (hread : readOptions w argv = .next st)
    (hfd : st.fd ≠ none) (hoff : st.checksum_offset = 0) :
    ∃ img, main w argv = .returned 0 img
      ∧ calc_checksum (img.take (img.length - 12)) 0 = rd32 img (img.length - 4)
      ∧ (recordsSize st.PDataBlock < 2 ^ 32 →
          8 + rd32 img 4 = img.length - 12
          ∧ calc_checksum (img.take (8 + rd32 img 4)) 0 = rd32 img (img.length - 4)) := by
  obtain ⟨-, -, hc⟩ := readOptions_next w argv st hread
  have hlt : calc_checksum (imageBody st) 0 < 2 ^ 32 := calc_checksum_lt _ 0 (by norm_num)
  have hsum12 : ∀ c, (imageBody st ++ (le32 CHECK_SUM_TYPE ++ le32 4 ++ le32 c)).length - 12
      = (imageBody st).length := by
    intro c
    rw [image_length]
    omega
  have hmain : calc_checksum
      ((imageBody st ++ (le32 CHECK_SUM_TYPE ++ le32 4
          ++ le32 (addOffset (calc_checksum (imageBody st) 0) st.checksum_offset))).take
        (imageBody st).length) 0
      = rd32 (imageBody st ++ (le32 CHECK_SUM_TYPE ++ le32 4
          ++ le32 (addOffset (calc_checksum (imageBody st) 0) st.checksum_offset)))
        ((imageBody st ++ (le32 CHECK_SUM_TYPE ++ le32 4
          ++ le32 (addOffset (calc_checksum (imageBody st) 0) st.checksum_offset))).length - 4) := by
    rw [image_take_body, image_checksum_word, hoff, addOffset_zero _ hlt]
    exact (Nat.mod_eq_of_lt hlt).symm
  refine ⟨_, main_reliable w hw argv st hread hfd, ?_, ?_⟩
  · rw [hsum12]
    exact hmain
  · intro hsum
    obtain ⟨ht, hl⟩ := imageBody_length st hc hsum
    have hw4 : ∀ rest, 8 + rd32 (imageBody st ++ rest) 4 = (imageBody st).length := by
      intro rest
      rw [image_total_word, ht, Nat.mod_eq_of_lt hsum, hl]
    refine ⟨?_, ?_⟩
    · rw [hw4, hsum12]
    · rw [hw4]
      exact hmain

/-- C2 at the request `-o pd.img -wifi_mac 00:50:43:00:11:22`. -/
theorem checksum_reproduced_witness :
    (idealWorld.reliable
      ∧ readOptions idealWorld [cstr "mkpdimg", cstr "-o", cstr "pd.img", cstr "-wifi_mac",
          cstr "00:50:43:00:11:22"]
        = .next ⟨[⟨WIFI_MAC_TYPE, 17, cstr "00:50:43:00:11:22"⟩], some (cstr "pd.img"), 0, 25⟩)
    ∧ ∃ img, main idealWorld [cstr "mkpdimg", cstr "-o", cstr "pd.img", cstr "-wifi_mac",
          cstr "00:50:43:00:11:22"] = .returned 0 img
        ∧ calc_checksum (img.take (img.length - 12)) 0 = rd32 img (img.length - 4)
        ∧ ((25 : Nat) < 2 ^ 32 →
            8 + rd32 img 4 = img.length - 12
            ∧ calc_checksum (img.take (8 + rd32 img 4)) 0 = rd32 img (img.length - 4)) :=
  ⟨⟨idealWorld_reliable, by decide⟩,
   checksum_reproduced idealWorld idealWorld_reliable
     [cstr "mkpdimg", cstr "-o", cstr "pd.img", cstr "-wifi_mac", cstr "00:50:43:00:11:22"]
     ⟨[⟨WIFI_MAC_TYPE, 17, cstr "00:50:43:00:11:22"⟩], some (cstr "pd.img"), 0, 25⟩
     (by decide) (by decide) rfl⟩

/-! ## Appending an option to an argument list -/

theorem optionLoop_append (w : World) (more : List Bytes) :
    ∀ (args : List Bytes) (st st1 : MainState), optionLoop w args st = .next st1 →
      optionLoop w (args ++ more) st = optionLoop w more st1
  | [], st, st1, h => by
    simp only [optionLoop] at h
    injection h with h
    subst h
    rfl
  | [_], st, st1, h => by
    simp only [optionLoop] at h
    cases h
  | opt :: arg :: rest, st, st1, h => by
    simp only [optionLoop, List.cons_append] at h ⊢
    cases hs : handleOption w st opt arg with
    | stop o => rw [hs] at h; cases h
    | next st2 =>
      rw [hs] at h
      simp only []
      exact optionLoop_append w more rest st2 st1 h

theorem readOptions_append (w : World) (prog : Bytes) (args more : List Bytes) (st : MainState)
    (hread : readOptions w (prog :: args) = .next st) (hne : args ≠ []) :
    readOptions w (prog :: (args ++ more)) = optionLoop w more st := by
  cases args with
  | nil => exact absurd rfl hne
  | cons a as =>
    unfold readOptions at hread ⊢
    simp only [List.cons_append, List.length_cons, List.getElem?_cons_succ,
      List.getElem?_cons_zero, List.drop_succ_cons, List.drop_zero] at hread ⊢
    split at hread
    · cases hread
    · rename_i hh
      have hh' : ¬ ((as ++ more).length + 1 + 1 > 1 ∧ some a = some (cstr "-help")) := by
        intro hx
        exact hh ⟨by omega, hx.2⟩
      rw [if_neg hh']
      exact optionLoop_append w more (a :: as) _ _ hread

theorem handleOption_test_checksum (w : World) (st : MainState) (s : Bytes) (k : Int)
    (hk : atoi s = some k) :
    handleOption w st (cstr "-test_checksum") s = .next { st with checksum_offset := k } := by
  unfold handleOption
  rw [if_neg (by decide), if_neg (by decide), if_neg (by decide), if_neg (by decide),
    if_neg (by decide), if_neg (by decide), if_neg (by decide), if_pos rfl, hk]

theorem optionLoop_test_checksum (w : World) (st : MainState) (s : Bytes) (k : Int)
    (hk : atoi s = some k) :
    optionLoop w [cstr "-test_checksum", s] st = .next { st with checksum_offset := k } := by
  simp only [optionLoop, handleOption_test_checksum w st s k hk]

theorem addOffset_cast (c : Nat) (k : Int) :
    ((addOffset c k : Nat) : Int) = ((c : Int) + k) % 2 ^ 32 := by
  unfold addOffset
  exact Int.toNat_of_nonneg (Int.emod_nonneg _ (by norm_num))

/-! ## atoi on decimal numerals -/

theorem digitsValue_map (l : List Nat) (acc : Nat) (h : ∀ d ∈ l, d < 10) :
    digitsValue (l.map (fun d => d + 48)) acc = l.foldl (fun a d => a * 10 + d) acc := by
  induction l generalizing acc with
  | nil => rfl
  | cons d l ih =>
    have hd : d < 10 := h d (List.mem_cons_self _ _)
    have hdig : isdigit (d + 48) = true := by
      simp only [isdigit, Bool.and_eq_true, decide_eq_true_eq]
      omega
    simp only [List.map_cons, digitsValue, hdig, if_true, List.foldl_cons, Nat.add_sub_cancel]
    exact ih _ (fun x hx => h x (List.mem_cons_of_mem _ hx))

theorem foldl_digits (n : Nat) :
    (Nat.digits 10 n).reverse.foldl (fun a d => a * 10 + d) 0 = n := by
  rw [List.foldl_reverse]
  have h := Nat.ofDigits_digits 10 n
  rw [Nat.ofDigits_eq_foldr] at h
  have e : (fun (x y : Nat) => y * 10 + x) = (fun (x y : Nat) => ((10 : Nat) : Nat) * y + x) := by
    funext x y; omega
  simp only [Nat.cast_id] at h
  rw [e]
  convert h using 2
  funext x y
  omega

theorem digitsValue_decimal (n : Nat) :
    digitsValue ((Nat.digits 10 n).reverse.map (fun d => d + 48)) 0 = n := by
  rw [digitsValue_map, foldl_digits]
  intro d hd
  exact Nat.digits_lt_base (by norm_num) (List.mem_reverse.mp hd)

theorem atoi_digits (s : Bytes) (hs : ∀ c ∈ s, 48 ≤ c)
    (hv : (digitsValue s 0 : Int) ≤ 2147483647) :
    atoi s = some (digitsValue s 0 : Int) := by
  have hdrop : s.dropWhile isspace = s := by
    cases s with
    | nil => rfl
    | cons c cs =>
      have hc := hs c (List.mem_cons_self _ _)
      have : isspace c = false := by
        simp only [isspace, Bool.or_eq_false_iff, Bool.and_eq_false_iff, beq_eq_false_iff_ne,
          decide_eq_false_iff_not]
        omega
      simp [List.dropWhile_cons, this]
  unfold atoi
  rw [hdrop]
  split
  · rename_i cs
    have := hs 45 (List.mem_cons_self _ _)
    omega
  · rename_i cs
    have := hs 43 (List.mem_cons_self _ _)
    omega
  · simp only []
    rw [if_pos ⟨by omega, hv⟩]

theorem atoi_minus (cs : Bytes) (hv : (digitsValue cs 0 : Int) ≤ 2147483648) :
    atoi (45 :: cs) = some (-(digitsValue cs 0 : Int)) := by
  unfold atoi
  have hdrop : (45 :: cs).dropWhile isspace = 45 :: cs := by
    simp [List.dropWhile_cons, isspace]
  rw [hdrop]
  simp only []
  rw [if_pos ⟨by omega, by omega⟩]

theorem atoi_decimal (k : Int) (hlo : -2147483648 ≤ k) (hhi : k ≤ 2147483647) :
    atoi (decimal k) = some k := by
  unfold decimal
  by_cases hk : k < 0
  · rw [if_pos hk, atoi_minus, digitsValue_decimal]
    · congr 1; omega
    · rw [digitsValue_decimal]; omega
  · rw [if_neg hk, atoi_digits, digitsValue_decimal]
    · congr 1; omega
    · intro c hc
      simp only [List.mem_map] at hc
      obtain ⟨d, -, rfl⟩ := hc
      omega
    · rw [digitsValue_decimal]; omega

theorem image_take_front (body : Bytes) (c : Nat) :
    (body ++ (le32 CHECK_SUM_TYPE ++ le32 4 ++ le32 c)).take
        ((body ++ (le32 CHECK_SUM_TYPE ++ le32 4 ++ le32 c)).length - 4)
      = body ++ (le32 CHECK_SUM_TYPE ++ le32 4) := by
  have hl : (body ++ (le32 CHECK_SUM_TYPE ++ le32 4 ++ le32 c)).length - 4
      = (body ++ (le32 CHECK_SUM_TYPE ++ le32 4)).length := by
    simp only [List.length_append, le32_length]
    omega
  have ha : body ++ (le32 CHECK_SUM_TYPE ++ le32 4 ++ le32 c)
      = (body ++ (le32 CHECK_SUM_TYPE ++ le32 4)) ++ le32 c := by
    simp only [List.append_assoc]
  rw [hl, ha, image_take_body]

theorem readOptions_init_fd (w : World) (prog : Bytes) (st : MainState)
    (hread : readOptions w [prog] = .next st) : st.fd = none := by
  unfold readOptions at hread
  split at hread
  · cases hread
  · simp only [List.drop_succ_cons, List.drop_zero, optionLoop] at hread
    injection hread with h
    subst h
    rfl

/-- C3. Let an argument list be read to the end with an output file open, and
let `k` be a value of type `int`.  Some string has value `k` under `atoi`, and
for every such string `s`: appending `-test_checksum s` yields an image of the
same length as appending `-test_checksum 0` (the image of the list itself when
its offset is 0), equal to it on all bytes but the last four, and the checksum
stored in the last four bytes is the offset-0 one plus `k` modulo `2 ^ 32`. -/
theorem test_checksum_offset (w : World) (hw : w.reliable) (prog : Bytes)
    (args : List Bytes) (st : MainState) (hread : readOptions w (prog :: args) = .next st)
    (hfd : st.fd ≠ none) (k : Int) (hlo : -2147483648 ≤ k) (hhi : k ≤ 2147483647) :
    atoi (decimal k) = some k
    ∧ ∀ s, atoi s = some k →
      ∃ img0 imgk,
        main w (prog :: (args ++ [cstr "-test_checksum", cstr "0"])) = .returned 0 img0
        ∧ main w (prog :: (args ++ [cstr "-test_checksum", s])) = .returned 0 imgk
        ∧ (st.checksum_offset = 0 → main w (prog :: args) = .returned 0 img0)
        ∧ imgk.length = img0.length
        ∧ imgk.take (imgk.length - 4) = img0.take (img0.length - 4)
        ∧ (rd32 imgk (imgk.length - 4) : Int)
            = ((rd32 img0 (img0.length - 4) : Int) + k) % 2 ^ 32 := by
  refine ⟨atoi_decimal k hlo hhi, fun s hk => ?_⟩
  have hne : args ≠ [] := by
    intro h
    subst h
    exact hfd (readOptions_init_fd w prog st hread)
  have h0 : readOptions w (prog :: (args ++ [cstr "-test_checksum", cstr "0"]))
      = .next { st with checksum_offset := 0 } := by
    rw [readOptions_append w prog args _ st hread hne]
    exact optionLoop_test_checksum w st (cstr "0") 0 (by decide)
  have hk' : readOptions w (prog :: (args ++ [cstr "-test_checksum", s]))
      = .next { st with checksum_offset := k } := by
    rw [readOptions_append w prog args _ st hread hne]
    exact optionLoop_test_checksum w st s k hk
  have m0 := main_reliable w hw _ _ h0 hfd
  have mk := main_reliable w hw _ _ hk' hfd
  have hb0 : imageBody { st with checksum_offset := 0 } = imageBody st := rfl
  have hbk : imageBody { st with checksum_offset := k } = imageBody st := rfl
  simp only [hb0] at m0
  simp only [hbk] at mk
  have hc : calc_checksum (imageBody st) 0 < 2 ^ 32 := calc_checksum_lt _ 0 (by norm_num)
  refine ⟨_, _, m0, mk, ?_, ?_, ?_, ?_⟩
  · intro hz
    have := main_reliable w hw _ _ hread hfd
    rw [hz] at this
    exact this
  · rw [image_length, image_length]
  · rw [image_take_front, image_take_front]
  · rw [image_checksum_word, image_checksum_word, addOffset_zero _ hc,
      Nat.mod_eq_of_lt (addOffset_lt _ _), Nat.mod_eq_of_lt hc, addOffset_cast]

/-- C3 at the request `-sn SN042 -o pd.img` and the offset -3. -/
theorem test_checksum_offset_witness :
    (idealWorld.reliable
      ∧ readOptions idealWorld [cstr "mkpdimg", cstr "-sn", cstr "SN042", cstr "-o", cstr "pd.img"]
        = .next ⟨[⟨SN_TYPE, 5, cstr "SN042"⟩], some (cstr "pd.img"), 0, 13⟩)
    ∧ atoi (decimal (-3)) = some (-3)
    ∧ ∀ s, atoi s = some (-3) →
      ∃ img0 imgk,
        main idealWorld ([cstr "mkpdimg", cstr "-sn", cstr "SN042", cstr "-o", cstr "pd.img",
          cstr "-test_checksum", cstr "0"]) = .returned 0 img0
        ∧ main idealWorld ([cstr "mkpdimg", cstr "-sn", cstr "SN042", cstr "-o", cstr "pd.img",
          cstr "-test_checksum", s]) = .returned 0 imgk
        ∧ ((0 : Int) = 0 → main idealWorld [cstr "mkpdimg", cstr "-sn", cstr "SN042", cstr "-o",
          cstr "pd.img"] = .returned 0 img0)
        ∧ imgk.length = img0.length
        ∧ imgk.take (imgk.length - 4) = img0.take (img0.length - 4)
        ∧ (rd32 imgk (imgk.length - 4) : Int)
            = ((rd32 img0 (img0.length - 4) : Int) + (-3)) % 2 ^ 32 :=
  ⟨⟨idealWorld_reliable, by decide⟩,
   test_checksum_offset idealWorld idealWorld_reliable (cstr "mkpdimg")
     [cstr "-sn", cstr "SN042", cstr "-o", cstr "pd.img"]
     ⟨[⟨SN_TYPE, 5, cstr "SN042"⟩], some (cstr "pd.img"), 0, 13⟩
     (by decide) (by decide) (-3) (by decide) (by decide)⟩

/-- C4, as stated, fails: with `-wifi_mac M -sn S` the WifiMac record is the
first record of the image, with `-sn S -wifi_mac M` the SerialNumber record is,
and the two images differ. -/
theorem option_order_changes_image :
    main idealWorld [cstr "mkpdimg", cstr "-wifi_mac", cstr "00:50:43:12:34:56",
        cstr "-sn", cstr "S", cstr "-o", cstr "out.img"]
      = .returned 0 (le32 image_header ++ le32 34
          ++ (PDATA_BLOCK_t.mk WIFI_MAC_TYPE 17 (cstr "00:50:43:12:34:56")).mem
          ++ (PDATA_BLOCK_t.mk SN_TYPE 1 (cstr "S")).mem ++ (checksumBlock 1570).mem)
    ∧ main idealWorld [cstr "mkpdimg", cstr "-sn", cstr "S",
        cstr "-wifi_mac", cstr "00:50:43:12:34:56", cstr "-o", cstr "out.img"]
      = .returned 0 (le32 image_header ++ le32 34
          ++ (PDATA_BLOCK_t.mk SN_TYPE 1 (cstr "S")).mem
          ++ (PDATA_BLOCK_t.mk WIFI_MAC_TYPE 17 (cstr "00:50:43:12:34:56")).mem
          ++ (checksumBlock 1570).mem)
    ∧ main idealWorld [cstr "mkpdimg", cstr "-wifi_mac", cstr "00:50:43:12:34:56",
        cstr "-sn", cstr "S", cstr "-o", cstr "out.img"]
      ≠ main idealWorld [cstr "mkpdimg", cstr "-sn", cstr "S",
        cstr "-wifi_mac", cstr "00:50:43:12:34:56", cstr "-o", cstr "out.img"] := by
  decide

/-- C4, amended. The records appear in the image in the order in which their
options are given: when the option loop ends with an output file open and the
record sizes sum below `2 ^ 32`, the blocks held are the records of the identity
options in option order, and the image is the header, the total length, the
memory of these records in that order, and a checksum block. -/
theorem records_in_option_order (w : World) (hw : w.reliable)
    (argv : List Bytes) (st : MainState) (hread : readOptions w argv = .next st)
    (hfd : st.fd ≠ none) (hsum : recordsSize st.PDataBlock < 2 ^ 32) :
    st.PDataBlock = optionRecords (argv.drop 1)
    ∧ ∃ c, main w argv = .returned 0
        (le32 image_header ++ le32 (recordsSize (optionRecords (argv.drop 1)))
          ++ ((optionRecords (argv.drop 1)).map PDATA_BLOCK_t.mem).flatten
          ++ (checksumBlock c).mem) := by
  obtain ⟨-, hb, -⟩ := readOptions_next w argv st hread
  obtain ⟨c, hc⟩ := main_image w hw argv st hread hfd hsum
  rw [hb] at hc
  exact ⟨hb, c, hc⟩

/-- C4, amended, at the request `-wifi_mac 00:50:43:12:34:56 -sn S -o out.img`. -/
theorem records_in_option_order_witness :
    (idealWorld.reliable
      ∧ readOptions idealWorld [cstr "mkpdimg", cstr "-wifi_mac", cstr "00:50:43:12:34:56",
          cstr "-sn", cstr "S", cstr "-o", cstr "out.img"]
        = .next ⟨[⟨WIFI_MAC_TYPE, 17, cstr "00:50:43:12:34:56"⟩, ⟨SN_TYPE, 1, cstr "S"⟩],
            some (cstr "out.img"), 0, 34⟩)
    ∧ ([⟨WIFI_MAC_TYPE, 17, cstr "00:50:43:12:34:56"⟩, ⟨SN_TYPE, 1, cstr "S"⟩]
        = optionRecords [cstr "-wifi_mac", cstr "00:50:43:12:34:56",
            cstr "-sn", cstr "S", cstr "-o", cstr "out.img"]
      ∧ ∃ c, main idealWorld [cstr "mkpdimg", cstr "-wifi_mac", cstr "00:50:43:12:34:56",
          cstr "-sn", cstr "S", cstr "-o", cstr "out.img"] = .returned 0
        (le32 image_header
          ++ le32 (recordsSize (optionRecords [cstr "-wifi_mac", cstr "00:50:43:12:34:56",
            cstr "-sn", cstr "S", cstr "-o", cstr "out.img"]))
          ++ ((optionRecords [cstr "-wifi_mac", cstr "00:50:43:12:34:56",
            cstr "-sn", cstr "S", cstr "-o", cstr "out.img"]).map PDATA_BLOCK_t.mem).flatten
          ++ (checksumBlock c).mem)) :=
  ⟨⟨idealWorld_reliable, by decide⟩,
   records_in_option_order idealWorld idealWorld_reliable
     [cstr "mkpdimg", cstr "-wifi_mac", cstr "00:50:43:12:34:56",
       cstr "-sn", cstr "S", cstr "-o", cstr "out.img"]
     ⟨[⟨WIFI_MAC_TYPE, 17, cstr "00:50:43:12:34:56"⟩, ⟨SN_TYPE, 1, cstr "S"⟩],
       some (cstr "out.img"), 0, 34⟩
     (by decide) (by decide) (by decide)⟩

/-! ## Requests that give a record kind twice -/

theorem handleOption_sn (w : World) (st : MainState) (arg : Bytes) :
    handleOption w st (cstr "-sn") arg = addString st SN_TYPE arg := by
  unfold handleOption
  rw [if_pos rfl]

theorem handleOption_wifi_mac (w : World) (st : MainState) (arg : Bytes) :
    handleOption w st (cstr "-wifi_mac") arg = addMac st WIFI_MAC_TYPE arg true := by
  unfold handleOption
  rw [if_neg (by decide), if_pos rfl]

theorem handleOption_wifi_mac_no_check (w : World) (st : MainState) (arg : Bytes) :
    handleOption w st (cstr "-wifi_mac_no_check") arg = addMac st WIFI_MAC_TYPE arg false := by
  unfold handleOption
  rw [if_neg (by decide), if_neg (by decide), if_pos rfl]

theorem handleOption_o (w : World) (st : MainState) (arg : Bytes) (h : w.fopen arg = true) :
    handleOption w st (cstr "-o") arg = .next { st with fd := some arg } := by
  unfold handleOption
  rw [if_neg (by decide), if_neg (by decide), if_neg (by decide), if_neg (by decide),
    if_neg (by decide), if_neg (by decide), if_pos rfl, if_pos h]

theorem addString_small (st : MainState) (type : Nat) (arg : Bytes)
    (hn : st.PDataBlock.length < 4) (hlen : arg.length < 2 ^ 32) :
    addString st type arg = .next { st with
      PDataBlock := st.PDataBlock ++ [⟨type, arg.length, arg⟩]
      total_data_len := (st.total_data_len + (arg.length + 8) % 2 ^ 32) % 2 ^ 32 } := by
  unfold addString addBlock
  rw [if_pos (by simpa [MainState.total_blocks, BLOCK_NUMBER] using hn)]
  rw [Nat.mod_eq_of_lt hlen, List.take_length]
  rfl

theorem addMac_valid (st : MainState) (type : Nat) (arg : Bytes) (fc : Bool)
    (hn : st.PDataBlock.length < 4) (hv : validateMacAddr arg fc = .ok)
    (hlen : arg.length = 17) :
    addMac st type arg fc = .next { st with
      PDataBlock := st.PDataBlock ++ [⟨type, 17, arg⟩]
      total_data_len := (st.total_data_len + 25) % 2 ^ 32 } := by
  unfold addMac addBlock
  have htake : (arg ++ [0]).take MAC_ADDRESS_LEN = arg := by
    rw [MAC_ADDRESS_LEN, ← hlen, List.take_left']
    rfl
  rw [if_neg (by simp [MAC_ADDRESS_LEN, hlen]), hv]
  simp only [ValResult.ret]
  rw [if_neg (by simp), if_neg (by simp [MAC_ADDRESS_LEN, hlen]),
    if_pos (by simpa [MainState.total_blocks, BLOCK_NUMBER] using hn), htake]
  rfl

/-- C10, as stated, fails: with `-sn` given twice, and with `-wifi_mac` given
together with `-wifi_mac_no_check`, `main` returns 0 and the image holds two
records with the same type tag. -/
theorem duplicate_kind_image_produced :
    main idealWorld [cstr "mkpdimg", cstr "-sn", cstr "A1", cstr "-sn", cstr "B2",
        cstr "-o", cstr "out.img"]
      = .returned 0 (le32 image_header ++ le32 20
          ++ (PDATA_BLOCK_t.mk SN_TYPE 2 (cstr "A1")).mem
          ++ (PDATA_BLOCK_t.mk SN_TYPE 2 (cstr "B2")).mem ++ (checksumBlock 789).mem)
    ∧ main idealWorld [cstr "mkpdimg", cstr "-wifi_mac", cstr "00:50:43:12:34:56",
        cstr "-wifi_mac_no_check", cstr "0a:0b:0c:0d:0e:0f", cstr "-o", cstr "out.img"]
      = .returned 0 (le32 image_header ++ le32 50
          ++ (PDATA_BLOCK_t.mk WIFI_MAC_TYPE 17 (cstr "00:50:43:12:34:56")).mem
          ++ (PDATA_BLOCK_t.mk WIFI_MAC_TYPE 17 (cstr "0a:0b:0c:0d:0e:0f")).mem
          ++ (checksumBlock 2695).mem) := by
  decide

theorem handleOption_bt_mac (w : World) (st : MainState) (arg : Bytes) :
    handleOption w st (cstr "-bt_mac") arg = addMac st BT_MAC_TYPE arg true := by
  unfold handleOption
  rw [if_neg (by decide), if_neg (by decide), if_neg (by decide), if_pos rfl]

theorem handleOption_bt_mac_no_check (w : World) (st : MainState) (arg : Bytes) :
    handleOption w st (cstr "-bt_mac_no_check") arg = addMac st BT_MAC_TYPE arg false := by
  unfold handleOption
  rw [if_neg (by decide), if_neg (by decide), if_neg (by decide), if_neg (by decide),
    if_pos rfl]

theorem handleOption_zb_mac (w : World) (st : MainState) (arg : Bytes) :
    handleOption w st (cstr "-zb_mac") arg = addString st ZB_MAC_TYPE arg := by
  unfold handleOption
  rw [if_neg (by decide), if_neg (by decide), if_neg (by decide), if_neg (by decide),
    if_neg (by decide), if_pos rfl]

theorem handleOption_o_eq (w : World) (st : MainState) (arg : Bytes) :
    handleOption w st (cstr "-o") arg
      = if w.fopen arg then .next { st with fd := some arg } else .stop (.exited 1) := by
  unfold handleOption
  rw [if_neg (by decide), if_neg (by decide), if_neg (by decide), if_neg (by decide),
    if_neg (by decide), if_neg (by decide), if_pos rfl]

theorem handleOption_test_checksum_eq (w : World) (st : MainState) (arg : Bytes) :
    handleOption w st (cstr "-test_checksum") arg
      = match atoi arg with
        | some v => .next { st with checksum_offset := v }
        | none => .stop .undefined := by
  unfold handleOption
  rw [if_neg (by decide), if_neg (by decide), if_neg (by decide), if_neg (by decide),
    if_neg (by decide), if_neg (by decide), if_neg (by decide), if_pos rfl]

theorem addBlock_ok (st : MainState) (type length : Nat) (data : Bytes)
    (hn : st.PDataBlock.length < 4) :
    ∃ st', addBlock st type length data = .next st'
      ∧ st'.PDataBlock = st.PDataBlock ++ [⟨type, length, data⟩] := by
  unfold addBlock
  rw [if_pos (by simpa [MainState.total_blocks, BLOCK_NUMBER] using hn)]
  exact ⟨_, rfl, rfl⟩

theorem addMac_ok (st : MainState) (type : Nat) (arg : Bytes) (fc : Bool)
    (hn : st.PDataBlock.length < 4) (hv : validateMacAddr arg fc = .ok)
    (hlen : arg.length = 16 ∨ arg.length = 17) :
    ∃ st', addMac st type arg fc = .next st'
      ∧ st'.PDataBlock
          = st.PDataBlock ++ [⟨type, MAC_ADDRESS_LEN, (arg ++ [0]).take MAC_ADDRESS_LEN⟩] := by
  unfold addMac
  rw [if_neg (by simp only [MAC_ADDRESS_LEN]; omega), hv]
  simp only [ValResult.ret]
  rw [if_neg (by simp), if_neg (by simp only [MAC_ADDRESS_LEN]; omega)]
  exact addBlock_ok st _ _ _ hn

theorem acceptedAlone_next (w : World) (opt arg : Bytes) (h : acceptedAlone w opt arg = true) :
    ∃ st0, handleOption w MainState.init opt arg = .next st0 := by
  unfold acceptedAlone at h
  cases hs : handleOption w MainState.init opt arg with
  | next st0 => exact ⟨st0, rfl⟩
  | stop o => rw [hs] at h; cases h

/-- The loop body accepts, whatever blocks are held below the bound of the
array, every option that it accepts when no block is held. -/
theorem handleOption_accepted (w : World) (st : MainState) (opt arg : Bytes)
    (hacc : acceptedAlone w opt arg = true)
    (hn : st.PDataBlock.length + (optionRecord opt arg).length ≤ 4) :
    ∃ st', handleOption w st opt arg = .next st'
      ∧ st'.PDataBlock = st.PDataBlock ++ optionRecord opt arg := by
  obtain ⟨st0, h0⟩ := acceptedAlone_next w opt arg hacc
  by_cases h1 : opt = cstr "-sn"
  · subst h1
    rw [optionRecord, if_pos rfl] at hn ⊢
    rw [handleOption_sn]
    exact addBlock_ok st _ _ _ (by simp only [List.length_singleton] at hn; omega)
  by_cases h2 : opt = cstr "-wifi_mac"
  · subst h2
    rw [optionRecord, if_neg (by decide), if_pos (Or.inl rfl)] at hn ⊢
    rw [handleOption_wifi_mac] at h0 ⊢
    obtain ⟨-, -, -, -, hv, hl⟩ := addMac_next _ _ _ _ _ h0
    exact addMac_ok st _ _ _ (by simp only [List.length_singleton] at hn; omega) hv hl
  by_cases h3 : opt = cstr "-wifi_mac_no_check"
  · subst h3
    rw [optionRecord, if_neg (by decide), if_pos (Or.inr rfl)] at hn ⊢
    rw [handleOption_wifi_mac_no_check] at h0 ⊢
    obtain ⟨-, -, -, -, hv, hl⟩ := addMac_next _ _ _ _ _ h0
    exact addMac_ok st _ _ _ (by simp only [List.length_singleton] at hn; omega) hv hl
  by_cases h4 : opt = cstr "-bt_mac"
  · subst h4
    rw [optionRecord, if_neg (by decide), if_neg (by decide), if_pos (Or.inl rfl)] at hn ⊢
    rw [handleOption_bt_mac] at h0 ⊢
    obtain ⟨-, -, -, -, hv, hl⟩ := addMac_next _ _ _ _ _ h0
    exact addMac_ok st _ _ _ (by simp only [List.length_singleton] at hn; omega) hv hl
  by_cases h5 : opt = cstr "-bt_mac_no_check"
  · subst h5
    rw [optionRecord, if_neg (by decide), if_neg (by decide), if_pos (Or.inr rfl)] at hn ⊢
    rw [handleOption_bt_mac_no_check] at h0 ⊢
    obtain ⟨-, -, -, -, hv, hl⟩ := addMac_next _ _ _ _ _ h0
    exact addMac_ok st _ _ _ (by simp only [List.length_singleton] at hn; omega) hv hl
  by_cases h6 : opt = cstr "-zb_mac"
  · subst h6
    rw [optionRecord, if_neg (by decide), if_neg (by decide), if_neg (by decide),
      if_pos rfl] at hn ⊢
    rw [handleOption_zb_mac]
    exact addBlock_ok st _ _ _ (by simp only [List.length_singleton] at hn; omega)
  have hrec : optionRecord opt arg = [] := by
    rw [optionRecord, if_neg h1, if_neg (not_or.mpr ⟨h2, h3⟩), if_neg (not_or.mpr ⟨h4, h5⟩),
      if_neg h6]
  rw [hrec, List.append_nil]
  by_cases h7 : opt = cstr "-o"
  · subst h7
    rw [handleOption_o_eq] at h0 ⊢
    by_cases hf : w.fopen arg = true
    · rw [if_pos hf]
      exact ⟨_, rfl, rfl⟩
    · rw [if_neg hf] at h0
      cases h0
  by_cases h8 : opt = cstr "-test_checksum"
  · subst h8
    rw [handleOption_test_checksum_eq] at h0 ⊢
    cases ha : atoi arg with
    | none => rw [ha] at h0; cases h0
    | some v => exact ⟨_, rfl, rfl⟩
  unfold handleOption at h0
  rw [if_neg h1, if_neg h2, if_neg h3, if_neg h4, if_neg h5, if_neg h6, if_neg h7,
    if_neg h8] at h0
  cases h0

theorem optionLoop_accepted (w : World) :
    ∀ (args : List Bytes) (st : MainState), allAcceptedAlone w args = true →
      st.PDataBlock.length + (optionRecords args).length ≤ 4 →
      ∃ st', optionLoop w args st = .next st'
        ∧ st'.PDataBlock = st.PDataBlock ++ optionRecords args
  | [], st, _, _ => ⟨st, rfl, by simp [optionRecords]⟩
  | [_], st, h, _ => by simp [allAcceptedAlone] at h
  | opt :: arg :: rest, st, h, hn => by
    simp only [allAcceptedAlone, Bool.and_eq_true] at h
    simp only [optionRecords, List.length_append] at hn
    obtain ⟨st1, h1, hb1⟩ := handleOption_accepted w st opt arg h.1 (by omega)
    obtain ⟨st2, h2, hb2⟩ := optionLoop_accepted w rest st1 h.2 (by
      rw [hb1, List.length_append]; omega)
    refine ⟨st2, ?_, ?_⟩
    · simp only [optionLoop, h1]
      exact h2
    · rw [hb2, hb1, optionRecords, List.append_assoc]

theorem acceptedAlone_help (w : World) (arg : Bytes) :
    acceptedAlone w (cstr "-help") arg = false := by
  unfold acceptedAlone handleOption
  rw [if_neg (by decide), if_neg (by decide), if_neg (by decide), if_neg (by decide),
    if_neg (by decide), if_neg (by decide), if_neg (by decide), if_neg (by decide)]

theorem readOptions_accepted (w : World) (prog : Bytes) (args : List Bytes) (out : Bytes)
    (hopen : w.fopen out = true) (hacc : allAcceptedAlone w args = true)
    (hfour : (optionRecords args).length ≤ 4) :
    ∃ st, readOptions w (prog :: (args ++ [cstr "-o", out])) = .next st
      ∧ st.PDataBlock = optionRecords args ∧ st.fd = some out := by
  obtain ⟨st1, h1, hb1⟩ := optionLoop_accepted w args MainState.init hacc (by
    simpa [MainState.init] using hfour)
  have hloop : optionLoop w (args ++ [cstr "-o", out]) MainState.init
      = .next { st1 with fd := some out } := by
    rw [optionLoop_append w _ args _ _ h1]
    simp only [optionLoop, handleOption_o w _ out hopen]
  have hhelp : ¬ ((prog :: (args ++ [cstr "-o", out])).length > 1
      ∧ (prog :: (args ++ [cstr "-o", out]))[1]? = some (cstr "-help")) := by
    rintro ⟨-, hx⟩
    match args, hacc with
    | [], _ =>
      simp only [List.nil_append, List.getElem?_cons_succ, List.getElem?_cons_zero,
        Option.some.injEq] at hx
      exact absurd hx (by decide)
    | [_], h => simp [allAcceptedAlone] at h
    | opt :: arg :: rest, h =>
      simp only [List.cons_append, List.getElem?_cons_succ, List.getElem?_cons_zero,
        Option.some.injEq] at hx
      simp only [allAcceptedAlone, Bool.and_eq_true] at h
      rw [hx, acceptedAlone_help] at h
      exact absurd h.1 (by simp)
  refine ⟨{ st1 with fd := some out }, ?_, ?_, rfl⟩
  · unfold readOptions
    rw [if_neg hhelp]
    simpa using hloop
  · simpa [MainState.init] using hb1

/-- C10, amended. A request that gives a record kind more than once is not
rejected on that account, for the option loop has no duplicate check: when
each option of an argument list is one that is accepted when given alone, and
the list adds at most four records, repeated kinds included, whose sizes sum
below `2 ^ 32`, the request made of this list and an output file is read to its
end, `main` returns 0, and the image holds the record of every identity option
of the list, in option order. -/
theorem repeated_kind_accepted (w : World) (hw : w.reliable) (prog : Bytes)
    (args : List Bytes) (out : Bytes) (hopen : w.fopen out = true)
    (hacc : allAcceptedAlone w args = true) (hfour : (optionRecords args).length ≤ 4)
    (hsum : recordsSize (optionRecords args) < 2 ^ 32) :
    ∃ c, main w (prog :: (args ++ [cstr "-o", out])) = .returned 0
        (le32 image_header ++ le32 (recordsSize (optionRecords args))
          ++ ((optionRecords args).map PDATA_BLOCK_t.mem).flatten
          ++ (checksumBlock c).mem) := by
  obtain ⟨st, hread, hb, hfd⟩ := readOptions_accepted w prog args out hopen hacc hfour
  obtain ⟨c, hc⟩ := main_image w hw _ st hread (by rw [hfd]; simp) (by rw [hb]; exact hsum)
  rw [hb] at hc
  exact ⟨c, hc⟩

/-- C10, amended, at the request
`-zb_mac 0a1b -bt_mac 00:50:43:12:34:56 -zb_mac 0c2d -bt_mac_no_check 0a:0b:0c:0d:0e:0f -o out.img`:
the image holds two ZigbeeMac records and two BluetoothMac records. -/
theorem repeated_kind_accepted_witness :
    (idealWorld.reliable ∧ idealWorld.fopen (cstr "out.img") = true
      ∧ allAcceptedAlone idealWorld [cstr "-zb_mac", cstr "0a1b", cstr "-bt_mac",
          cstr "00:50:43:12:34:56", cstr "-zb_mac", cstr "0c2d", cstr "-bt_mac_no_check",
          cstr "0a:0b:0c:0d:0e:0f"] = true
      ∧ optionRecords [cstr "-zb_mac", cstr "0a1b", cstr "-bt_mac",
          cstr "00:50:43:12:34:56", cstr "-zb_mac", cstr "0c2d", cstr "-bt_mac_no_check",
          cstr "0a:0b:0c:0d:0e:0f"]
        = [⟨ZB_MAC_TYPE, 4, cstr "0a1b"⟩, ⟨BT_MAC_TYPE, 17, cstr "00:50:43:12:34:56"⟩,
           ⟨ZB_MAC_TYPE, 4, cstr "0c2d"⟩, ⟨BT_MAC_TYPE, 17, cstr "0a:0b:0c:0d:0e:0f"⟩])
    ∧ ∃ c, main idealWorld (cstr "mkpdimg" :: ([cstr "-zb_mac", cstr "0a1b", cstr "-bt_mac",
          cstr "00:50:43:12:34:56", cstr "-zb_mac", cstr "0c2d", cstr "-bt_mac_no_check",
          cstr "0a:0b:0c:0d:0e:0f"] ++ [cstr "-o", cstr "out.img"])) = .returned 0
        (le32 image_header
          ++ le32 (recordsSize (optionRecords [cstr "-zb_mac", cstr "0a1b", cstr "-bt_mac",
              cstr "00:50:43:12:34:56", cstr "-zb_mac", cstr "0c2d", cstr "-bt_mac_no_check",
              cstr "0a:0b:0c:0d:0e:0f"]))
          ++ ((optionRecords [cstr "-zb_mac", cstr "0a1b", cstr "-bt_mac",
              cstr "00:50:43:12:34:56", cstr "-zb_mac", cstr "0c2d", cstr "-bt_mac_no_check",
              cstr "0a:0b:0c:0d:0e:0f"]).map PDATA_BLOCK_t.mem).flatten
          ++ (checksumBlock c).mem) :=
  ⟨⟨idealWorld_reliable, rfl, by decide, by decide⟩,
   repeated_kind_accepted idealWorld idealWorld_reliable (cstr "mkpdimg")
     [cstr "-zb_mac", cstr "0a1b", cstr "-bt_mac", cstr "00:50:43:12:34:56", cstr "-zb_mac",
       cstr "0c2d", cstr "-bt_mac_no_check", cstr "0a:0b:0c:0d:0e:0f"]
     (cstr "out.img") rfl (by decide) (by decide) (by decide)⟩

/-! ## Claims on calc_checksum -/

/-- The checksum of a stream in closed form. -/
theorem calc_checksum_eq (bs : Bytes) (seed : Nat) :
    calc_checksum bs seed = if bs = [] then seed else (seed + bs.sum) % 2 ^ 32 := by
  induction bs generalizing seed with
  | nil => rfl
  | cons b rest ih =>
    simp only [calc_checksum, ih, List.sum_cons]
    by_cases hr : rest = []
    · subst hr
      simp
    · simp only [hr, if_false, List.cons_ne_nil]
      omega

theorem calc_checksum_cons_sum (pre post : Bytes) (b seed : Nat) :
    calc_checksum (pre ++ b :: post) seed = (seed + (pre.sum + post.sum) + b) % 2 ^ 32 := by
  rw [calc_checksum_eq, if_neg (by simp), List.sum_append, List.sum_cons]
  congr 1
  omega

/-- C15. For every byte sequence and every 32-bit seed, `calc_checksum`
returns the seed plus the sum of all the bytes, modulo `2 ^ 32`. -/
theorem calc_checksum_is_sum (bs : Bytes) (seed : Nat) (hseed : seed < 2 ^ 32) :
    calc_checksum bs seed = (seed + bs.sum) % 2 ^ 32 := by
  rw [calc_checksum_eq]
  split
  · rename_i h
    subst h
    simp only [List.sum_nil, Nat.add_zero]
    exact (Nat.mod_eq_of_lt hseed).symm
  · rfl

/-- C15 at the four bytes of the magic word with seed `0xFFFFFFFF`: the sum wraps. -/
theorem calc_checksum_is_sum_witness :
    (4294967295 : Nat) < 2 ^ 32
    ∧ calc_checksum (le32 image_header) 4294967295
        = (4294967295 + (le32 image_header).sum) % 2 ^ 32
    ∧ calc_checksum (le32 image_header) 4294967295 = 52 :=
  ⟨by decide, calc_checksum_is_sum (le32 image_header) 4294967295 (by decide), by decide⟩

/-- C17. Replacing the byte at any position of a sequence by a different byte
value changes the checksum, whatever the seed. -/
theorem calc_checksum_detects_byte_change (seed : Nat) (bs : Bytes) (i : Nat)
    (hi : i < bs.length) (b' : Nat) (hb : bs[i] < 256) (hb' : b' < 256) (hne : b' ≠ bs[i]) :
    calc_checksum (bs.set i b') seed ≠ calc_checksum bs seed := by
  have h1 : bs.set i b' = bs.take i ++ b' :: bs.drop (i + 1) :=
    List.set_eq_take_cons_drop b' hi
  have h2 : bs = bs.take i ++ bs[i] :: bs.drop (i + 1) := by
    conv_lhs => rw [← List.take_append_drop i bs, List.drop_eq_getElem_cons hi]
  rw [h1]
  conv_rhs => rw [h2]
  rw [calc_checksum_cons_sum, calc_checksum_cons_sum]
  omega

/-- C17 at the magic word, with its second byte `0x14` replaced by `0x15`. -/
theorem calc_checksum_detects_byte_change_witness :
    (1 < (le32 image_header).length ∧ (le32 image_header)[1] < 256 ∧ (21 : Nat) < 256
      ∧ (21 : Nat) ≠ (le32 image_header)[1])
    ∧ calc_checksum ((le32 image_header).set 1 21) 0 ≠ calc_checksum (le32 image_header) 0 :=
  ⟨by decide,
   calc_checksum_detects_byte_change 0 (le32 image_header) 1 (by decide) 21 (by decide)
     (by decide) (by decide)⟩

/-- C18, as stated, fails: no seed and no byte sequence exist for which
swapping two adjacent unequal bytes changes the checksum. -/
theorem calc_checksum_no_swap_detected :
    ¬ ∃ (seed : Nat) (pre post : Bytes) (a b : Nat), a ≠ b
      ∧ calc_checksum (pre ++ a :: b :: post) seed ≠ calc_checksum (pre ++ b :: a :: post) seed := by
  rintro ⟨seed, pre, post, a, b, -, h⟩
  apply h
  rw [calc_checksum_cons_sum, calc_checksum_cons_sum, List.sum_cons, List.sum_cons]
  congr 1
  omega

/-- C18, amended. `calc_checksum` does not depend on the order of the bytes:
swapping two adjacent bytes leaves the checksum unchanged, whatever the seed
and the sequence. -/
theorem calc_checksum_swap_adjacent (seed : Nat) (pre post : Bytes) (a b : Nat) :
    calc_checksum (pre ++ a :: b :: post) seed = calc_checksum (pre ++ b :: a :: post) seed := by
  rw [calc_checksum_cons_sum, calc_checksum_cons_sum, List.sum_cons, List.sum_cons]
  congr 1
  omega

/-! ## The records and the checksum record of an image -/

theorem optionRecord_type (opt arg : Bytes) (b : PDATA_BLOCK_t) (hb : b ∈ optionRecord opt arg) :
    b.type = SN_TYPE ∨ b.type = WIFI_MAC_TYPE ∨ b.type = BT_MAC_TYPE ∨ b.type = ZB_MAC_TYPE := by
  unfold optionRecord at hb
  split_ifs at hb
  · rw [List.mem_singleton] at hb; subst hb; exact Or.inl rfl
  · rw [List.mem_singleton] at hb; subst hb; exact Or.inr (Or.inl rfl)
  · rw [List.mem_singleton] at hb; subst hb; exact Or.inr (Or.inr (Or.inl rfl))
  · rw [List.mem_singleton] at hb; subst hb; exact Or.inr (Or.inr (Or.inr rfl))
  · cases hb

theorem optionRecords_type :
    ∀ (args : List Bytes) (b : PDATA_BLOCK_t), b ∈ optionRecords args →
      b.type = SN_TYPE ∨ b.type = WIFI_MAC_TYPE ∨ b.type = BT_MAC_TYPE ∨ b.type = ZB_MAC_TYPE
  | [], b, hb => by simp [optionRecords] at hb
  | [_], b, hb => by simp [optionRecords] at hb
  | opt :: arg :: rest, b, hb => by
    rw [optionRecords, List.mem_append] at hb
    rcases hb with hb | hb
    · exact optionRecord_type opt arg b hb
    · exact optionRecords_type rest b hb

theorem image_drop_body (body tail : Bytes) :
    (body ++ tail).drop body.length = tail := by
  simp

/-- C14. When the option loop ends with an output file open, `main` returns 0
and the image starts with the bytes `00 14 08 19` of the magic word; its last
twelve bytes are the words `0xF0FF`, 4 and the checksum value; no block held
has type `0xF0FF`; and when the record sizes sum below `2 ^ 32` the last twelve
bytes are at offset `8 + total_payload_length` and the image is the magic word,
the total length, the blocks held and this one checksum record. -/
theorem image_magic_and_checksum_record (w : World) (hw : w.reliable)
    (argv : List Bytes) (st : MainState) (hread : readOptions w argv = .next st)
    (hfd : st.fd ≠ none) :
    ∃ img, main w argv = .returned 0 img
      ∧ img.take 4 = [0, 20, 8, 25] ∧ rd32 img 0 = 0x19081400
      ∧ img.drop (img.length - 12) = le32 0xF0FF ++ le32 4
          ++ le32 (addOffset (calc_checksum (img.take (img.length - 12)) 0) st.checksum_offset)
      ∧ (∀ b ∈ st.PDataBlock, b.type ≠ 0xF0FF)
      ∧ (recordsSize st.PDataBlock < 2 ^ 32 →
          8 + rd32 img 4 = img.length - 12
          ∧ img = le32 0x19081400 ++ le32 (recordsSize st.PDataBlock)
              ++ (st.PDataBlock.map PDATA_BLOCK_t.mem).flatten
              ++ img.drop (img.length - 12)) := by
  obtain ⟨-, hb, hc⟩ := readOptions_next w argv st hread
  have hlen12 : ∀ c, (imageBody st ++ (le32 CHECK_SUM_TYPE ++ le32 4 ++ le32 c)).length - 12
      = (imageBody st).length := by
    intro c
    rw [image_length]
    omega
  refine ⟨_, main_reliable w hw argv st hread hfd, ?_, ?_, ?_, ?_, ?_⟩
  · simp only [imageBody, List.append_assoc]
    rfl
  · simp only [imageBody, List.append_assoc]
    rw [rd32_le32]
    rfl
  · rw [hlen12, image_drop_body, image_take_body]
    rfl
  · intro b hmem
    rw [hb] at hmem
    have := optionRecords_type _ b hmem
    simp only [SN_TYPE, WIFI_MAC_TYPE, BT_MAC_TYPE, ZB_MAC_TYPE] at this
    omega
  · intro hsum
    obtain ⟨ht, hl⟩ := imageBody_length st hc hsum
    refine ⟨?_, ?_⟩
    · rw [image_total_word, ht, Nat.mod_eq_of_lt hsum, hlen12, hl]
    · rw [hlen12, image_drop_body]
      have hbody : imageBody st = le32 0x19081400 ++ le32 (recordsSize st.PDataBlock)
          ++ (st.PDataBlock.map PDATA_BLOCK_t.mem).flatten := by
        unfold imageBody
        rw [ht, (blocksBytes_eq _ hc.1 hsum).1]
        rfl
      rw [hbody]

/-- C14 at the request `-bt_mac_no_check 0a:0b:0c:0d:0e:0f -o pd.img -test_checksum 7`. -/
theorem image_magic_and_checksum_record_witness :
    (idealWorld.reliable
      ∧ readOptions idealWorld [cstr "mkpdimg", cstr "-bt_mac_no_check",
          cstr "0a:0b:0c:0d:0e:0f", cstr "-o", cstr "pd.img", cstr "-test_checksum", cstr "7"]
        = .next ⟨[⟨BT_MAC_TYPE, 17, cstr "0a:0b:0c:0d:0e:0f"⟩], some (cstr "pd.img"), 7, 25⟩)
    ∧ ∃ img, main idealWorld [cstr "mkpdimg", cstr "-bt_mac_no_check",
          cstr "0a:0b:0c:0d:0e:0f", cstr "-o", cstr "pd.img", cstr "-test_checksum", cstr "7"]
        = .returned 0 img
      ∧ img.take 4 = [0, 20, 8, 25] ∧ rd32 img 0 = 0x19081400
      ∧ img.drop (img.length - 12) = le32 0xF0FF ++ le32 4
          ++ le32 (addOffset (calc_checksum (img.take (img.length - 12)) 0) 7)
      ∧ (∀ b ∈ [PDATA_BLOCK_t.mk BT_MAC_TYPE 17 (cstr "0a:0b:0c:0d:0e:0f")], b.type ≠ 0xF0FF)
      ∧ (recordsSize [PDATA_BLOCK_t.mk BT_MAC_TYPE 17 (cstr "0a:0b:0c:0d:0e:0f")] < 2 ^ 32 →
          8 + rd32 img 4 = img.length - 12
          ∧ img = le32 0x19081400
              ++ le32 (recordsSize [PDATA_BLOCK_t.mk BT_MAC_TYPE 17 (cstr "0a:0b:0c:0d:0e:0f")])
              ++ ([PDATA_BLOCK_t.mk BT_MAC_TYPE 17 (cstr "0a:0b:0c:0d:0e:0f")].map
                    PDATA_BLOCK_t.mem).flatten
              ++ img.drop (img.length - 12)) :=
  ⟨⟨idealWorld_reliable, by decide⟩,
   image_magic_and_checksum_record idealWorld idealWorld_reliable
     [cstr "mkpdimg", cstr "-bt_mac_no_check", cstr "0a:0b:0c:0d:0e:0f", cstr "-o",
       cstr "pd.img", cstr "-test_checksum", cstr "7"]
     ⟨[⟨BT_MAC_TYPE, 17, cstr "0a:0b:0c:0d:0e:0f"⟩], some (cstr "pd.img"), 7, 25⟩
     (by decide) (by decide)⟩

/-! ## The serial-number record -/

theorem readOptions_sn_o (w : World) (prog s out : Bytes) (hopen : w.fopen out = true)
    (hlen : s.length + 8 < 2 ^ 32) :
    readOptions w [prog, cstr "-sn", s, cstr "-o", out]
      = .next ⟨[⟨SN_TYPE, s.length, s⟩], some out, 0, 8 + s.length⟩ := by
  unfold readOptions
  rw [if_neg (by
    intro hx
    have := hx.2
    simp only [List.getElem?_cons_succ, List.getElem?_cons_zero, Option.some.injEq] at this
    exact absurd this (by decide))]
  simp only [List.drop_succ_cons, List.drop_zero, optionLoop, handleOption_sn]
  rw [addString_small _ _ s (by simp [MainState.init]) (by omega)]
  simp only []
  rw [handleOption_o w _ out hopen]
  simp only [MainState.init, List.nil_append, Step.next.injEq, MainState.mk.injEq, true_and]
  omega

/-- C13. Building with only `-sn s` and an output file, for an argument of
`n` bytes, yields an image of `8 + (8 + n) + 12` bytes whose bytes `[8..12)`
hold the word `0xF001`, whose bytes `[12..16)` hold the word `n` and whose next
`n` bytes are the argument; and whatever blocks are held (fewer than four), the
option `-sn s` adds the record of type `0xF001`, length `n` and data `s`. -/
theorem serial_number_record (w : World) (hw : w.reliable) (prog s out : Bytes)
    (hopen : w.fopen out = true) (hlen : s.length + 8 < 2 ^ 32) :
    (∃ img, main w [prog, cstr "-sn", s, cstr "-o", out] = .returned 0 img
      ∧ img.length = 8 + (8 + s.length) + 12
      ∧ rd32 img 8 = 0xF001 ∧ rd32 img 12 = s.length
      ∧ (img.drop 16).take s.length = s)
    ∧ ∀ st : MainState, st.PDataBlock.length < 4 →
        ∃ st', handleOption w st (cstr "-sn") s = .next st'
          ∧ st'.PDataBlock = st.PDataBlock ++ [⟨0xF001, s.length, s⟩] := by
  constructor
  · have hread := readOptions_sn_o w prog s out hopen hlen
    have hsum : recordsSize [PDATA_BLOCK_t.mk SN_TYPE s.length s] < 2 ^ 32 := by
      simp only [recordsSize, List.map_cons, List.map_nil, List.sum_cons, List.sum_nil]
      omega
    obtain ⟨c, hc⟩ := main_image w hw _ _ hread (by simp) hsum
    refine ⟨_, hc, ?_, ?_, ?_, ?_⟩
    · simp only [List.length_append, le32_length, List.map_cons, List.map_nil,
        List.flatten_cons, List.flatten_nil, List.length_nil, mem_length, checksumBlock,
        sizeof_unsigned_int]
      omega
    · have h := rd32_append (le32 image_header
          ++ le32 (recordsSize [PDATA_BLOCK_t.mk SN_TYPE s.length s]))
        (le32 SN_TYPE ++ (le32 s.length ++ s ++ (checksumBlock c).mem)) 0
      simp only [List.length_append, le32_length, Nat.add_zero] at h
      simp only [List.map_cons, List.map_nil, List.flatten_cons, List.flatten_nil,
        List.append_nil, PDATA_BLOCK_t.mem, List.append_assoc] at h ⊢
      rw [h, rd32_le32]
      rfl
    · have h := rd32_append (le32 image_header
          ++ le32 (recordsSize [PDATA_BLOCK_t.mk SN_TYPE s.length s]) ++ le32 SN_TYPE)
        (le32 s.length ++ (s ++ (checksumBlock c).mem)) 0
      simp only [List.length_append, le32_length, Nat.add_zero] at h
      simp only [List.map_cons, List.map_nil, List.flatten_cons, List.flatten_nil,
        List.append_nil, PDATA_BLOCK_t.mem, List.append_assoc] at h ⊢
      rw [h, rd32_le32]
      exact Nat.mod_eq_of_lt (by omega)
    · have h := image_drop_body (le32 image_header
          ++ le32 (recordsSize [PDATA_BLOCK_t.mk SN_TYPE s.length s]) ++ le32 SN_TYPE
          ++ le32 s.length) (s ++ (checksumBlock c).mem)
      simp only [List.length_append, le32_length] at h
      simp only [List.map_cons, List.map_nil, List.flatten_cons, List.flatten_nil,
        List.append_nil, PDATA_BLOCK_t.mem, List.append_assoc] at h ⊢
      rw [h, image_take_body]
  · intro st hn
    rw [handleOption_sn, addString_small st SN_TYPE s hn (by omega)]
    exact ⟨_, rfl, rfl⟩

/-- C13 at the request `-sn ABC123 -o out.img`: the image has 34 bytes. -/
theorem serial_number_record_witness :
    (idealWorld.reliable ∧ idealWorld.fopen (cstr "out.img") = true
      ∧ (cstr "ABC123").length + 8 < 2 ^ 32)
    ∧ ∃ img, main idealWorld [cstr "mkpdimg", cstr "-sn", cstr "ABC123", cstr "-o",
          cstr "out.img"] = .returned 0 img
      ∧ img.length = 34
      ∧ rd32 img 8 = 0xF001 ∧ rd32 img 12 = 6
      ∧ (img.drop 16).take 6 = cstr "ABC123" :=
  ⟨⟨idealWorld_reliable, rfl, by decide⟩,
   (serial_number_record idealWorld idealWorld_reliable (cstr "mkpdimg") (cstr "ABC123")
      (cstr "out.img") rfl (by decide)).1⟩

/-! ## Claims where the code departs from its documentation -/

/-- C11. A fifth add is not rejected: with four blocks held the store to
`PDataBlock[total_blocks]` is outside the array, so `main` has undefined
behaviour on a request with five identity options.  The blocks held at the
end of an option loop that ends are at most four. -/
theorem fifth_record_out_of_bounds :
    main idealWorld [cstr "mkpdimg", cstr "-sn", cstr "a", cstr "-wifi_mac",
        cstr "00:50:43:12:34:56", cstr "-bt_mac", cstr "00:50:43:12:34:57", cstr "-zb_mac",
        cstr "d", cstr "-sn", cstr "e", cstr "-o", cstr "out.img"] = .undefined
    ∧ main idealWorld [cstr "mkpdimg", cstr "-sn", cstr "a", cstr "-sn", cstr "b", cstr "-sn",
        cstr "c", cstr "-sn", cstr "d", cstr "-sn", cstr "e", cstr "-o", cstr "out.img"]
      = .undefined
    ∧ (∀ (st : MainState) (type length : Nat) (data : Bytes),
        st.total_blocks = BLOCK_NUMBER → addBlock st type length data = .stop .undefined)
    ∧ (∀ (w : World) (argv : List Bytes) (st : MainState),
        readOptions w argv = .next st → st.total_blocks ≤ BLOCK_NUMBER) := by
  refine ⟨by decide, by decide, ?_, ?_⟩
  · intro st type length data h
    unfold addBlock
    rw [if_neg (by omega)]
  · intro w argv st h
    exact (readOptions_next w argv st h).2.2.2.2

/-- C12. An accepted address need not have 17 bytes, and then the payload is
not the address: the 16-byte `00:50:43:1:34:56` is accepted in strict mode and
its record holds the 16 bytes and the NUL that ends the argument; the 11-byte
`1:2:3:4:5:6` is accepted without format checking and the 17-byte `memcpy`
reads outside the argument.  For an accepted address of 17 bytes the record has
length 17 and the address as its data. -/
theorem mac_record_payload :
    validateMacAddr (cstr "00:50:43:1:34:56") true = .ok
    ∧ main idealWorld [cstr "mkpdimg", cstr "-wifi_mac", cstr "00:50:43:1:34:56",
        cstr "-o", cstr "out.img"]
      = .returned 0 (le32 image_header ++ le32 25
          ++ (PDATA_BLOCK_t.mk WIFI_MAC_TYPE 17 (cstr "00:50:43:1:34:56" ++ [0])).mem
          ++ (checksumBlock 1186).mem)
    ∧ (cstr "00:50:43:1:34:56" ++ [0]).length = 17 ∧ (cstr "00:50:43:1:34:56").length = 16
    ∧ validateMacAddr (cstr "1:2:3:4:5:6") false = .ok
    ∧ main idealWorld [cstr "mkpdimg", cstr "-wifi_mac_no_check", cstr "1:2:3:4:5:6",
        cstr "-o", cstr "out.img"] = .undefined
    ∧ (∀ (st : MainState) (type : Nat) (arg : Bytes) (format_checking : Bool),
        st.PDataBlock.length < 4 → validateMacAddr arg format_checking = .ok →
        arg.length = 17 →
        ∃ st', addMac st type arg format_checking = .next st'
          ∧ st'.PDataBlock = st.PDataBlock ++ [⟨type, 17, arg⟩]) := by
  refine ⟨by decide, by decide, by decide, by decide, by decide, by decide, ?_⟩
  intro st type arg fc hn hv hl
  rw [addMac_valid st type arg fc hn hv hl]
  exact ⟨_, rfl, rfl⟩

/-- C16. The offset of `-test_checksum` is added, not subtracted: for
`-sn SN042 -o pd.img` the correct checksum is 623, and with `-test_checksum 3`
the image stores 626, not 620. -/
theorem test_checksum_is_added :
    calc_checksum (le32 image_header ++ le32 13
        ++ (PDATA_BLOCK_t.mk SN_TYPE 5 (cstr "SN042")).mem) 0 = 623
    ∧ main idealWorld [cstr "mkpdimg", cstr "-sn", cstr "SN042", cstr "-o", cstr "pd.img"]
      = .returned 0 (le32 image_header ++ le32 13
          ++ (PDATA_BLOCK_t.mk SN_TYPE 5 (cstr "SN042")).mem ++ (checksumBlock 623).mem)
    ∧ main idealWorld [cstr "mkpdimg", cstr "-sn", cstr "SN042", cstr "-o", cstr "pd.img",
        cstr "-test_checksum", cstr "3"]
      = .returned 0 (le32 image_header ++ le32 13
          ++ (PDATA_BLOCK_t.mk SN_TYPE 5 (cstr "SN042")).mem ++ (checksumBlock (623 + 3)).mem)
    ∧ checksumBlock (623 + 3) ≠ checksumBlock (623 - 3) := by
  decide

/-- C19. A write cut short by an interrupt is not retried: when the first
`fwrite` transfers two of the four bytes of the magic word with `errno` at
`EINTR`, `main` goes on with the next write and returns 0 on an image of 32
bytes that lacks the bytes `08 19`.  When the same short write has another
`errno`, `main` returns -1. -/
theorem interrupted_write_not_retried :
    main interruptedWorld [cstr "mkpdimg", cstr "-sn", cstr "ABC123", cstr "-o", cstr "out.img"]
      = .returned 0 ([0, 20] ++ le32 14 ++ (PDATA_BLOCK_t.mk SN_TYPE 6 (cstr "ABC123")).mem
          ++ (checksumBlock 629).mem)
    ∧ main idealWorld [cstr "mkpdimg", cstr "-sn", cstr "ABC123", cstr "-o", cstr "out.img"]
      = .returned 0 ([0, 20, 8, 25] ++ le32 14 ++ (PDATA_BLOCK_t.mk SN_TYPE 6 (cstr "ABC123")).mem
          ++ (checksumBlock 662).mem)
    ∧ main failingWorld [cstr "mkpdimg", cstr "-sn", cstr "ABC123", cstr "-o", cstr "out.img"]
      = .returned (-1) [0, 20] := by
  decide

/-! ## Addresses without a token -/

theorem tokens_all_colons (s : Bytes) (h : ∀ c ∈ s, c = 58) : tokens s = [] := by
  induction s with
  | nil => exact tokens_nil
  | cons c s ih =>
    have hc : c = 58 := h c (List.mem_cons_self _ _)
    subst hc
    rw [tokens_cons_colon]
    exact ih (fun x hx => h x (List.mem_cons_of_mem _ hx))

/-- C20. On an address that is empty or made of colons only, the first
`strtok` returns NULL; in strict mode `validateMacAddr` hands this NULL to
`strcmp`, which is undefined behaviour and returns no value, and in non-strict
mode it returns -1. -/
theorem validateMacAddr_no_token (mac_addr : Bytes) (h : ∀ c ∈ mac_addr, c = 58) :
    validateMacAddr mac_addr true = .nullToken
    ∧ (validateMacAddr mac_addr true).ret = none
    ∧ (validateMacAddr mac_addr false).ret = some (-1) := by
  rw [validateMacAddr_eq, validateMacAddr_eq, tokens_all_colons mac_addr h]
  exact ⟨rfl, rfl, rfl⟩

/-- C20 at the address `:::`, and at the empty address given to `-wifi_mac`. -/
theorem validateMacAddr_no_token_witness :
    (∀ c ∈ cstr ":::", c = 58)
    ∧ (validateMacAddr (cstr ":::") true = .nullToken
      ∧ (validateMacAddr (cstr ":::") true).ret = none
      ∧ (validateMacAddr (cstr ":::") false).ret = some (-1))
    ∧ main idealWorld [cstr "mkpdimg", cstr "-wifi_mac", cstr "", cstr "-o", cstr "out.img"]
      = .undefined :=
  ⟨by decide, validateMacAddr_no_token (cstr ":::") (by decide), by decide⟩

end Mkpdimg
